import Mathlib

/-!
Verification of the path-mapping synchronization engine
(`src/unnamed/part_009`, `executeSyncMapping` / `copyDirSync` /
`registerSyncHandlers`) and of the directory-tree reader
(`src/unnamed/part_010`, `readDirectoryTree`).

The filesystem is modeled as a finite tree (`FSTree`): a node is either a
file carrying its byte content, or a directory carrying an ordered list of
named entries.  Paths are modeled as lists of components; a path list
stands for the already-resolved absolute path that `path.resolve` produces
(the PathResolver is a pure normalization step and is abstracted away:
mapping endpoints are taken to be resolved component lists).

Each Node `fs` primitive used by the source — `existsSync`, `statSync`
(only its `isDirectory` use), `mkdirSync` with `recursive: true`,
`readdirSync` with `withFileTypes: true`, `copyFileSync`, `readFileSync`
and `writeFileSync` — is translated with its error behavior: a `none`
result models a thrown filesystem error (`ENOTDIR`, `EISDIR`, `ENOENT`,
`EEXIST`), which the source catches at the mapping boundary.

The recursive directory copy of the source can fail to terminate (when the
destination is created inside the source and then traversed), so
`copyDirSync` takes an explicit fuel bounding the recursion depth;
`CopyOut.fuelOut` marks a run that exceeds the bound, and divergence of
the source is rendered as `fuelOut` for every fuel.
-/

inductive FSTree : Type where
  | file : List Nat → FSTree
  | dir : List (String × FSTree) → FSTree

/-- First entry of a directory listing with the given name (real directory
listings have unique names; lookups always resolve the first entry). -/
def getEntry (es : List (String × FSTree)) (n : String) : Option FSTree :=
  match es with
  | [] => none
  | e :: rest => if e.1 = n then some e.2 else getEntry rest n

/-- Replace the first entry with the given name, or append a new entry. -/
def setEntry (es : List (String × FSTree)) (n : String) (t : FSTree) :
    List (String × FSTree) :=
  match es with
  | [] => [(n, t)]
  | e :: rest => if e.1 = n then (n, t) :: rest else e :: setEntry rest n t

/-- `statSync(p).isDirectory()` on a node. -/
def isDirNode : FSTree → Bool
  | FSTree.file _ => false
  | FSTree.dir _ => true

/-- Resolve a component path inside the tree; `none` when the path does not
exist (including traversal through a file component). -/
def fsLookup : FSTree → List String → Option FSTree
  | t, [] => some t
  | FSTree.file _, _ :: _ => none
  | FSTree.dir es, n :: rest =>
    match getEntry es n with
    | some t => fsLookup t rest
    | none => none

/-- `fs.existsSync`. -/
def existsSync (fs : FSTree) (p : List String) : Bool := (fsLookup fs p).isSome

/-- `fs.writeFileSync(p, c)`: overwrite or create the file at `p`.  Errors
(`none`): the parent chain has a missing or non-directory component, or `p`
itself is an existing directory (`EISDIR`). -/
def writeFileSync : FSTree → List String → List Nat → Option FSTree
  | FSTree.file _, [], c => some (FSTree.file c)
  | FSTree.dir _, [], _ => none
  | FSTree.file _, _ :: _, _ => none
  | FSTree.dir es, n :: rest, c =>
    match rest with
    | [] =>
      match getEntry es n with
      | some (FSTree.dir _) => none
      | _ => some (FSTree.dir (setEntry es n (FSTree.file c)))
    | _ :: _ =>
      match getEntry es n with
      | some t =>
        match writeFileSync t rest c with
        | some t2 => some (FSTree.dir (setEntry es n t2))
        | none => none
      | none => none

/-- `fs.mkdirSync(p, { recursive: true })`: create every missing directory
along `p`.  Errors: a component (including `p` itself) exists as a file. -/
def mkdirSync : FSTree → List String → Option FSTree
  | FSTree.file _, [] => none
  | FSTree.dir es, [] => some (FSTree.dir es)
  | FSTree.file _, _ :: _ => none
  | FSTree.dir es, n :: rest =>
    match getEntry es n with
    | some t =>
      match mkdirSync t rest with
      | some t2 => some (FSTree.dir (setEntry es n t2))
      | none => none
    | none =>
      match mkdirSync (FSTree.dir []) rest with
      | some t2 => some (FSTree.dir (setEntry es n t2))
      | none => none

/-- `fs.readdirSync(p, { withFileTypes: true })`, reduced to the data the
source consumes: each entry's name and its `isDirectory()` flag. -/
def readdirSync (fs : FSTree) (p : List String) : Option (List (String × Bool)) :=
  match fsLookup fs p with
  | some (FSTree.dir es) => some (es.map (fun e => (e.1, isDirNode e.2)))
  | _ => none

/-- `fs.readFileSync(p)`. -/
def readFileSync (fs : FSTree) (p : List String) : Option (List Nat) :=
  match fsLookup fs p with
  | some (FSTree.file c) => some c
  | _ => none

/-- `fs.copyFileSync(src, dst)`: read the source file, write the bytes at
the destination. -/
def copyFileSync (fs : FSTree) (src dst : List String) : Option FSTree :=
  match readFileSync fs src with
  | some c => writeFileSync fs dst c
  | none => none

/-- Display form of a resolved path, for the strings the engine builds. -/
def pathToString (p : List String) : String := "/" ++ String.intercalate "/" p

/-- `path.basename` of a resolved component path. -/
def pathBasename (p : List String) : String := p.getLastD ""

/-- `path.dirname` of a resolved component path. -/
def pathDirname (p : List String) : List String := p.dropLast

/-- `path.join(p, n)` for a single extra component. -/
def pathJoin (p : List String) (n : String) : List String := p ++ [n]

/-- Outcome of a fueled run of the recursive copy: normal completion with
the final filesystem, a thrown filesystem error with the filesystem at the
moment of the throw, or exhaustion of the recursion-depth bound. -/
inductive CopyOut : Type where
  | ok : FSTree → CopyOut
  | err : FSTree → CopyOut
  | fuelOut : CopyOut

mutual

/-- `copyDirSync(src, dest)` of the sync handler: ensure `dest` exists
(creating it recursively when absent), list `src`, then copy each entry —
recursively for subdirectories, `copyFileSync` for files.  The extra `Nat`
argument bounds the recursion depth. -/
def copyDirSync : Nat → FSTree → List String → List String → CopyOut
  | 0, _, _, _ => CopyOut.fuelOut
  | Nat.succ fuel, fs, src, dest =>
    match (if existsSync fs dest then some fs else mkdirSync fs dest) with
    | none => CopyOut.err fs
    | some fs1 =>
      match readdirSync fs1 src with
      | none => CopyOut.err fs1
      | some entries => copyEntries fuel fs1 src dest entries
termination_by fuel _ _ _ => (fuel, 0)

/-- The `for (const entry of entries)` loop body of `copyDirSync`. -/
def copyEntries : Nat → FSTree → List String → List String → List (String × Bool) → CopyOut
  | _, fs, _, _, [] => CopyOut.ok fs
  | fuel, fs, src, dest, (n, b) :: rest =>
    if b then
      match copyDirSync fuel fs (pathJoin src n) (pathJoin dest n) with
      | CopyOut.ok fs2 => copyEntries fuel fs2 src dest rest
      | other => other
    else
      match copyFileSync fs (pathJoin src n) (pathJoin dest n) with
      | some fs2 => copyEntries fuel fs2 src dest rest
      | none => CopyOut.err fs
termination_by fuel _ _ _ es => (fuel, es.length + 1)

end

/-- `SyncMapping` of the sync handler; `source` and `target` are the
resolved component paths. -/
structure SyncMapping : Type where
  id : String
  source : List String
  target : List String
  enabled : Bool

/-- Per-mapping result, with the `id` the IPC handler attaches. -/
structure SyncResult : Type where
  id : String
  success : Bool
  error : Option String
  detail : Option String

/-- Result of `sync:executeAll`. -/
structure BatchSyncResult : Type where
  success : Bool
  results : List SyncResult
  executed : Nat
  failed : Nat

/-- Stringified system error produced by the catch-all handler
(`String(error)`); its text comes from the runtime, so it is kept
abstract. -/
def ioErrorText : String := "Error"

/-- `executeSyncMapping` of the sync handler.  `none` models a run of the
directory copy that exceeds the fuel (the source would not return). -/
def executeSyncMapping (fuel : Nat) (fs : FSTree) (m : SyncMapping) :
    Option (SyncResult × FSTree) :=
  match fsLookup fs m.source with
  | none =>
    some ({ id := m.id, success := false,
            error := some ("源路径不存在: " ++ pathToString m.source),
            detail := none }, fs)
  | some (FSTree.dir _) =>
    match copyDirSync fuel fs m.source m.target with
    | CopyOut.ok fs2 =>
      some ({ id := m.id, success := true, error := none,
              detail := some ("目录已同步: " ++ pathToString m.source ++ " → " ++
                pathToString m.target) }, fs2)
    | CopyOut.err fs2 =>
      some ({ id := m.id, success := false, error := some ioErrorText,
              detail := none }, fs2)
    | CopyOut.fuelOut => none
  | some (FSTree.file c) =>
    match fsLookup fs m.target with
    | some (FSTree.dir _) =>
      match writeFileSync fs (pathJoin m.target (pathBasename m.source)) c with
      | some fs2 =>
        some ({ id := m.id, success := true, error := none,
                detail := some ("文件已同步: " ++ pathToString m.source ++ " → " ++
                  pathToString (pathJoin m.target (pathBasename m.source))) }, fs2)
      | none =>
        some ({ id := m.id, success := false, error := some ioErrorText,
                detail := none }, fs)
    | _ =>
      match (if existsSync fs (pathDirname m.target) then some fs
             else mkdirSync fs (pathDirname m.target)) with
      | none =>
        some ({ id := m.id, success := false, error := some ioErrorText,
                detail := none }, fs)
      | some fs1 =>
        match writeFileSync fs1 m.target c with
        | some fs2 =>
          some ({ id := m.id, success := true, error := none,
                  detail := some ("文件已同步: " ++ pathToString m.source ++ " → " ++
                    pathToString m.target) }, fs2)
        | none =>
          some ({ id := m.id, success := false, error := some ioErrorText,
                  detail := none }, fs1)

/-- The `for (const mapping of mappings)` loop of the `sync:executeAll`
handler: skip disabled mappings, execute the rest in order, thread the
filesystem. -/
def executeAllGo (fuel : Nat) (fs : FSTree) : List SyncMapping → Option (List SyncResult × FSTree)
  | [] => some ([], fs)
  | m :: rest =>
    if m.enabled then
      match executeSyncMapping fuel fs m with
      | none => none
      | some (r, fs2) =>
        match executeAllGo fuel fs2 rest with
        | none => none
        | some (rs, fs3) => some (r :: rs, fs3)
    else executeAllGo fuel fs rest

/-- The `sync:executeAll` handler: run the loop, then assemble the batch
result with its unconditional `success: true` and the computed counts. -/
def executeAll (fuel : Nat) (fs : FSTree) (ms : List SyncMapping) :
    Option (BatchSyncResult × FSTree) :=
  match executeAllGo fuel fs ms with
  | none => none
  | some (rs, fs2) =>
    some ({ success := true, results := rs, executed := rs.length,
            failed := (rs.filter (fun r => !r.success)).length }, fs2)

/-- `FileTreeNode` of the file handler; files carry an empty child list
(the source omits the field for files). -/
inductive FileTreeNode : Type where
  | mk : String → List String → Bool → List FileTreeNode → FileTreeNode

def FileTreeNode.name : FileTreeNode → String
  | FileTreeNode.mk n _ _ _ => n

def FileTreeNode.path : FileTreeNode → List String
  | FileTreeNode.mk _ p _ _ => p

def FileTreeNode.isDirectory : FileTreeNode → Bool
  | FileTreeNode.mk _ _ b _ => b

def FileTreeNode.children : FileTreeNode → List FileTreeNode
  | FileTreeNode.mk _ _ _ cs => cs

/-- `name.startsWith('.')`. -/
def startsWithDot (s : String) : Bool :=
  match s.data with
  | [] => false
  | c :: _ => c == '.'

/-- The hardcoded exclusion test of `readDirectoryTree`: an entry is kept
unless its name starts with a dot (except the literal `.gitignore`) or is
the literal `node_modules`. -/
def keepEntry (n : String) : Bool :=
  !(startsWithDot n && n != ".gitignore") && n != "node_modules"

/-- The sort comparator of `readDirectoryTree`, as a boolean
"may-precede": directories before files, same kind ordered by the
locale-aware comparison `cmp` (abstracted: `localeCompare` is
environment-defined). -/
def nodeLe (cmp : String → String → Ordering) (a b : FileTreeNode) : Bool :=
  if a.isDirectory && !b.isDirectory then true
  else if !a.isDirectory && b.isDirectory then false
  else cmp a.name b.name != Ordering.gt

/-- Listing as the reader performs it: `bad` marks directories whose
listing throws (permission error, disappeared mid-traversal); a missing
path or a file cannot be listed either. -/
def readdirChecked (bad : List String → Bool) (fs : FSTree) (p : List String) :
    Option (List (String × Bool)) :=
  if bad p then none else readdirSync fs p

mutual

/-- `readDirectoryTree(dirPath, depth)` with the depth already in `Nat`
form (`readDirectoryTree` below wraps the `Int` depth of the source; for
positive depths the two step in lockstep).  A failed listing yields `[]`
(the catch branch); collected nodes are sorted by the comparator. -/
def readTreeGo (cmp : String → String → Ordering) (bad : List String → Bool)
    (fs : FSTree) : Nat → List String → List FileTreeNode
  | 0, _ => []
  | Nat.succ n, p =>
    match readdirChecked bad fs p with
    | none => []
    | some entries => List.mergeSort (readNodes cmp bad fs n p entries) (nodeLe cmp)
termination_by n _ => (n, 0)

/-- The `for (const entry of entries)` loop of `readDirectoryTree`: skip
excluded names, build a node per entry, recursing with one level less for
directories. -/
def readNodes (cmp : String → String → Ordering) (bad : List String → Bool)
    (fs : FSTree) : Nat → List String → List (String × Bool) → List FileTreeNode
  | _, _, [] => []
  | n, p, (nm, b) :: rest =>
    if keepEntry nm then
      FileTreeNode.mk nm (pathJoin p nm) b
          (if b then readTreeGo cmp bad fs n (pathJoin p nm) else []) ::
        readNodes cmp bad fs n p rest
    else readNodes cmp bad fs n p rest
termination_by n _ es => (n, es.length + 1)

end

/-- `readDirectoryTree(dirPath, depth)`: `depth <= 0` returns `[]`, else
one level is produced and the recursion continues with `depth - 1` — which
is exactly `readTreeGo` at `depth.toNat`. -/
def readDirectoryTree (cmp : String → String → Ordering) (bad : List String → Bool)
    (fs : FSTree) (dirPath : List String) (depth : Int) : List FileTreeNode :=
  readTreeGo cmp bad fs depth.toNat dirPath

mutual

/-- Real directory trees list each name once per directory; `wfTree` states
that invariant for the model. -/
def wfTree : FSTree → Bool
  | FSTree.file _ => true
  | FSTree.dir es => wfEntries es

def wfEntries : List (String × FSTree) → Bool
  | [] => true
  | e :: rest => !(rest.any (fun e2 => e2.1 == e.1)) && wfTree e.2 && wfEntries rest

end

/-! ### Basic lemmas about the filesystem model -/

theorem getEntry_setEntry_self (es : List (String × FSTree)) (n : String) (t : FSTree) :
    getEntry (setEntry es n t) n = some t := by
  induction es with
  | nil => simp [getEntry, setEntry]
  | cons e rest ih =>
    by_cases h : e.1 = n
    · simp [getEntry, setEntry, h]
    · simp [getEntry, setEntry, h, ih]

theorem getEntry_setEntry_ne (es : List (String × FSTree)) (n m : String) (t : FSTree)
    (h : m ≠ n) : getEntry (setEntry es n t) m = getEntry es m := by
  have hnm : ¬ n = m := fun hh => h hh.symm
  induction es with
  | nil => simp [getEntry, setEntry, hnm]
  | cons e rest ih =>
    obtain ⟨a, u⟩ := e
    by_cases he : a = n
    · subst he
      simp [getEntry, setEntry, hnm]
    · simp [getEntry, setEntry, he, ih]

theorem setEntry_getEntry_same (es : List (String × FSTree)) (n : String) (t : FSTree)
    (h : getEntry es n = some t) : setEntry es n t = es := by
  induction es with
  | nil => simp [getEntry] at h
  | cons e rest ih =>
    by_cases he : e.1 = n
    · simp only [getEntry, if_pos he] at h
      cases h
      simp only [setEntry, if_pos he]
      obtain ⟨e1, e2⟩ := e
      simp at he
      simp [he]
    · simp only [getEntry, if_neg he] at h
      simp [setEntry, if_neg he, ih h]

theorem fsLookup_append (p q : List String) : ∀ fs : FSTree,
    fsLookup fs (p ++ q) = (fsLookup fs p).bind (fun t => fsLookup t q) := by
  induction p with
  | nil => intro fs; simp [fsLookup]
  | cons n rest ih =>
    intro fs
    cases fs with
    | file c => simp [fsLookup]
    | dir es =>
      simp only [List.cons_append, fsLookup]
      cases h : getEntry es n with
      | none => simp
      | some t => simp [ih t]

theorem fsLookup_nil (t : FSTree) : fsLookup t [] = some t := by
  cases t <;> rfl

theorem fsLookup_file_cons (c : List Nat) (n : String) (rest : List String) :
    fsLookup (FSTree.file c) (n :: rest) = none := rfl

theorem fsLookup_file_ne_nil (c : List Nat) (q : List String) (h : q ≠ []) :
    fsLookup (FSTree.file c) q = none := by
  cases q with
  | nil => exact absurd rfl h
  | cons x xs => rfl

theorem fsLookup_dir_cons (es : List (String × FSTree)) (n : String) (rest : List String) :
    fsLookup (FSTree.dir es) (n :: rest) =
      match getEntry es n with
      | some t => fsLookup t rest
      | none => none := rfl


/-- Successful writes on a directory node replace exactly one entry. -/
theorem writeFileSync_cons_shape (es : List (String × FSTree)) (n : String)
    (rest : List String) (c : List Nat) (fs' : FSTree)
    (h : writeFileSync (FSTree.dir es) (n :: rest) c = some fs') :
    ∃ t2, fs' = FSTree.dir (setEntry es n t2) ∧
      ((rest = [] ∧ t2 = FSTree.file c ∧ ∀ es1, getEntry es n ≠ some (FSTree.dir es1)) ∨
       (rest ≠ [] ∧ ∃ t, getEntry es n = some t ∧ writeFileSync t rest c = some t2)) := by
  cases rest with
  | nil =>
    cases hg : getEntry es n with
    | none =>
      simp only [writeFileSync, hg, Option.some.injEq] at h
      exact ⟨FSTree.file c, h.symm, Or.inl ⟨rfl, rfl, fun es1 hh => by
        exact Option.noConfusion hh⟩⟩
    | some t =>
      cases t with
      | file c1 =>
        simp only [writeFileSync, hg, Option.some.injEq] at h
        exact ⟨FSTree.file c, h.symm, Or.inl ⟨rfl, rfl, fun es1 hh => by
          simp only [Option.some.injEq] at hh
          exact FSTree.noConfusion hh⟩⟩
      | dir es1 =>
        simp only [writeFileSync, hg] at h
        exact Option.noConfusion h
  | cons r rs =>
    cases hg : getEntry es n with
    | none =>
      simp only [writeFileSync, hg] at h
      exact Option.noConfusion h
    | some t =>
      cases hw : writeFileSync t (r :: rs) c with
      | none =>
        simp only [writeFileSync, hg, hw] at h
        exact Option.noConfusion h
      | some t2 =>
        simp only [writeFileSync, hg, hw, Option.some.injEq] at h
        exact ⟨t2, h.symm, Or.inr ⟨by simp, t, rfl, hw⟩⟩

/-- A successful write at `p` changes no lookup outside the subtree of `p`
(a path that is not an ancestor-or-self of `p` resolves as before). -/
theorem writeFileSync_frame (p : List String) : ∀ (fs fs' : FSTree) (c : List Nat),
    writeFileSync fs p c = some fs' → ∀ q : List String, ¬ q <+: p →
    fsLookup fs' q = fsLookup fs q := by
  induction p with
  | nil =>
    intro fs fs' c h q hq
    cases fs with
    | file c0 =>
      simp only [writeFileSync, Option.some.injEq] at h
      subst h
      cases q with
      | nil => exact absurd List.nil_prefix hq
      | cons x xs => rfl
    | dir es => simp [writeFileSync] at h
  | cons n rest ih =>
    intro fs fs' c h q hq
    cases fs with
    | file c0 => simp [writeFileSync] at h
    | dir es =>
      obtain ⟨t2, hfs', hcase⟩ := writeFileSync_cons_shape es n rest c fs' h
      subst hfs'
      cases q with
      | nil => exact absurd List.nil_prefix hq
      | cons m qr =>
        by_cases hm : m = n
        · subst hm
          have hqr : ¬ qr <+: rest := fun hh => hq (List.cons_prefix_cons.mpr ⟨rfl, hh⟩)
          rw [fsLookup_dir_cons, fsLookup_dir_cons, getEntry_setEntry_self]
          rcases hcase with ⟨hrest, ht2, hnd⟩ | ⟨hne, t, hg, hw⟩
          · subst hrest
            subst ht2
            have hqrne : qr ≠ [] := fun hh => hqr (hh ▸ List.nil_prefix)
            cases hg : getEntry es m with
            | none =>
              show fsLookup (FSTree.file c) qr = none
              exact fsLookup_file_ne_nil _ _ hqrne
            | some t =>
              cases t with
              | file c1 =>
                show fsLookup (FSTree.file c) qr = fsLookup (FSTree.file c1) qr
                rw [fsLookup_file_ne_nil _ _ hqrne, fsLookup_file_ne_nil _ _ hqrne]
              | dir es1 => exact absurd hg (hnd es1)
          · rw [hg]
            exact ih t t2 c hw qr hqr
        · rw [fsLookup_dir_cons, fsLookup_dir_cons,
            getEntry_setEntry_ne es n m t2 hm]

/-- A successful write at `p` leaves the written file at `p`. -/
theorem writeFileSync_lookup (p : List String) : ∀ (fs fs' : FSTree) (c : List Nat),
    writeFileSync fs p c = some fs' → fsLookup fs' p = some (FSTree.file c) := by
  induction p with
  | nil =>
    intro fs fs' c h
    cases fs with
    | file c0 =>
      simp only [writeFileSync, Option.some.injEq] at h
      subst h
      rfl
    | dir es => simp [writeFileSync] at h
  | cons n rest ih =>
    intro fs fs' c h
    cases fs with
    | file c0 => simp [writeFileSync] at h
    | dir es =>
      obtain ⟨t2, hfs', hcase⟩ := writeFileSync_cons_shape es n rest c fs' h
      subst hfs'
      rw [fsLookup_dir_cons, getEntry_setEntry_self]
      rcases hcase with ⟨hrest, ht2, _⟩ | ⟨_, t, _, hw⟩
      · subst hrest
        subst ht2
        rfl
      · exact ih t t2 c hw

/-- A write can only succeed where no directory sits. -/
theorem writeFileSync_not_dir (p : List String) : ∀ (fs fs' : FSTree) (c : List Nat),
    writeFileSync fs p c = some fs' → ∀ es0, fsLookup fs p ≠ some (FSTree.dir es0) := by
  induction p with
  | nil =>
    intro fs fs' c h es0 hl
    cases fs with
    | file c0 => rw [fsLookup_nil, Option.some.injEq] at hl; exact FSTree.noConfusion hl
    | dir es => simp [writeFileSync] at h
  | cons n rest ih =>
    intro fs fs' c h es0 hl
    cases fs with
    | file c0 => simp [writeFileSync] at h
    | dir es =>
      obtain ⟨t2, hfs', hcase⟩ := writeFileSync_cons_shape es n rest c fs' h
      rcases hcase with ⟨hrest, ht2, hnd⟩ | ⟨hne, t, hg, hw⟩
      · subst hrest
        rw [fsLookup_dir_cons] at hl
        cases hg : getEntry es n with
        | none => rw [hg] at hl; exact Option.noConfusion hl
        | some t =>
          cases t with
          | file c1 =>
            rw [hg] at hl
            simp only [fsLookup_nil, Option.some.injEq] at hl
            exact FSTree.noConfusion hl
          | dir es1 => exact hnd es1 hg
      · rw [fsLookup_dir_cons, hg] at hl
        exact ih t t2 c hw es0 hl

/-- Rewriting a file with its existing content does not change the tree. -/
theorem writeFileSync_same (p : List String) : ∀ (fs : FSTree) (c : List Nat),
    fsLookup fs p = some (FSTree.file c) → writeFileSync fs p c = some fs := by
  induction p with
  | nil =>
    intro fs c hl
    rw [fsLookup_nil, Option.some.injEq] at hl
    subst hl
    rfl
  | cons n rest ih =>
    intro fs c hl
    cases fs with
    | file c0 => exact Option.noConfusion hl
    | dir es =>
      rw [fsLookup_dir_cons] at hl
      cases hg : getEntry es n with
      | none => rw [hg] at hl; exact Option.noConfusion hl
      | some t =>
        rw [hg] at hl
        cases rest with
        | nil =>
          have hl2 : some t = some (FSTree.file c) := (fsLookup_nil t) ▸ hl
          rw [Option.some.injEq] at hl2
          subst hl2
          simp only [writeFileSync, hg, Option.some.injEq]
          rw [setEntry_getEntry_same es n _ hg]
        | cons r rs =>
          have hw := ih t c hl
          simp only [writeFileSync, hg, hw, Option.some.injEq]
          rw [setEntry_getEntry_same es n t hg]

/-- Successful recursive directory creation on a directory node replaces
exactly one entry. -/
theorem mkdirSync_cons_shape (es : List (String × FSTree)) (n : String)
    (rest : List String) (fs' : FSTree)
    (h : mkdirSync (FSTree.dir es) (n :: rest) = some fs') :
    ∃ t2, fs' = FSTree.dir (setEntry es n t2) ∧
      ((∃ t, getEntry es n = some t ∧ mkdirSync t rest = some t2) ∨
       (getEntry es n = none ∧ mkdirSync (FSTree.dir []) rest = some t2)) := by
  cases hg : getEntry es n with
  | some t =>
    cases hm : mkdirSync t rest with
    | none =>
      simp only [mkdirSync, hg, hm] at h
      exact Option.noConfusion h
    | some t2 =>
      simp only [mkdirSync, hg, hm, Option.some.injEq] at h
      exact ⟨t2, h.symm, Or.inl ⟨t, rfl, hm⟩⟩
  | none =>
    cases hm : mkdirSync (FSTree.dir []) rest with
    | none =>
      simp only [mkdirSync, hg, hm] at h
      exact Option.noConfusion h
    | some t2 =>
      simp only [mkdirSync, hg, hm, Option.some.injEq] at h
      exact ⟨t2, h.symm, Or.inr ⟨rfl, rfl⟩⟩

/-- Successful directory creation along `p` changes no lookup outside the
subtree of `p`. -/
theorem mkdirSync_frame (p : List String) : ∀ (fs fs' : FSTree),
    mkdirSync fs p = some fs' → ∀ q : List String, ¬ q <+: p →
    fsLookup fs' q = fsLookup fs q := by
  induction p with
  | nil =>
    intro fs fs' h q hq
    cases fs with
    | file c0 => simp [mkdirSync] at h
    | dir es =>
      simp only [mkdirSync, Option.some.injEq] at h
      subst h
      rfl
  | cons n rest ih =>
    intro fs fs' h q hq
    cases fs with
    | file c0 => simp [mkdirSync] at h
    | dir es =>
      obtain ⟨t2, hfs', hcase⟩ := mkdirSync_cons_shape es n rest fs' h
      subst hfs'
      cases q with
      | nil => exact absurd List.nil_prefix hq
      | cons m qr =>
        by_cases hm : m = n
        · subst hm
          have hqr : ¬ qr <+: rest := fun hh => hq (List.cons_prefix_cons.mpr ⟨rfl, hh⟩)
          have hqrne : qr ≠ [] := fun hh => hqr (hh ▸ List.nil_prefix)
          rw [fsLookup_dir_cons, fsLookup_dir_cons, getEntry_setEntry_self]
          rcases hcase with ⟨t, hg, hmk⟩ | ⟨hg, hmk⟩
          · rw [hg]
            exact ih t t2 hmk qr hqr
          · rw [hg]
            show fsLookup t2 qr = none
            rw [ih (FSTree.dir []) t2 hmk qr hqr]
            cases qr with
            | nil => exact absurd rfl hqrne
            | cons x xs => simp [fsLookup_dir_cons, getEntry]
        · rw [fsLookup_dir_cons, fsLookup_dir_cons, getEntry_setEntry_ne es n m t2 hm]

/-- After successful directory creation, `p` is a directory. -/
theorem mkdirSync_lookup (p : List String) : ∀ (fs fs' : FSTree),
    mkdirSync fs p = some fs' → ∃ es2, fsLookup fs' p = some (FSTree.dir es2) := by
  induction p with
  | nil =>
    intro fs fs' h
    cases fs with
    | file c0 => simp [mkdirSync] at h
    | dir es =>
      simp only [mkdirSync, Option.some.injEq] at h
      subst h
      exact ⟨es, rfl⟩
  | cons n rest ih =>
    intro fs fs' h
    cases fs with
    | file c0 => simp [mkdirSync] at h
    | dir es =>
      obtain ⟨t2, hfs', hcase⟩ := mkdirSync_cons_shape es n rest fs' h
      subst hfs'
      rw [fsLookup_dir_cons, getEntry_setEntry_self]
      rcases hcase with ⟨t, _, hmk⟩ | ⟨_, hmk⟩
      · exact ih t t2 hmk
      · exact ih (FSTree.dir []) t2 hmk

/-- Writes never remove nodes: an existing path still exists afterwards. -/
theorem writeFileSync_mono (p : List String) : ∀ (fs fs' : FSTree) (c : List Nat),
    writeFileSync fs p c = some fs' → ∀ q : List String,
    (fsLookup fs q).isSome → (fsLookup fs' q).isSome := by
  induction p with
  | nil =>
    intro fs fs' c h q hq
    cases fs with
    | file c0 =>
      simp only [writeFileSync, Option.some.injEq] at h
      subst h
      cases q with
      | nil => simp [fsLookup_nil]
      | cons x xs => simp [fsLookup_file_cons] at hq
    | dir es => simp [writeFileSync] at h
  | cons n rest ih =>
    intro fs fs' c h q hq
    cases fs with
    | file c0 => simp [writeFileSync] at h
    | dir es =>
      obtain ⟨t2, hfs', hcase⟩ := writeFileSync_cons_shape es n rest c fs' h
      subst hfs'
      cases q with
      | nil => simp [fsLookup_nil]
      | cons m qr =>
        by_cases hm : m = n
        · subst hm
          rw [fsLookup_dir_cons, getEntry_setEntry_self]
          rw [fsLookup_dir_cons] at hq
          rcases hcase with ⟨hrest, ht2, hnd⟩ | ⟨hne, t, hg, hw⟩
          · subst ht2
            cases hg : getEntry es m with
            | none => rw [hg] at hq; simp at hq
            | some t =>
              rw [hg] at hq
              cases t with
              | file c1 =>
                cases qr with
                | nil => simp [fsLookup_nil]
                | cons x xs => simp [fsLookup_file_cons] at hq
              | dir es1 => exact absurd hg (hnd es1)
          · rw [hg] at hq
            exact ih t t2 c hw qr hq
        · rw [fsLookup_dir_cons, getEntry_setEntry_ne es n m t2 hm]
          rw [fsLookup_dir_cons] at hq
          exact hq

/-- Directory creation never removes nodes. -/
theorem mkdirSync_mono (p : List String) : ∀ (fs fs' : FSTree),
    mkdirSync fs p = some fs' → ∀ q : List String,
    (fsLookup fs q).isSome → (fsLookup fs' q).isSome := by
  induction p with
  | nil =>
    intro fs fs' h q hq
    cases fs with
    | file c0 => simp [mkdirSync] at h
    | dir es =>
      simp only [mkdirSync, Option.some.injEq] at h
      subst h
      exact hq
  | cons n rest ih =>
    intro fs fs' h q hq
    cases fs with
    | file c0 => simp [mkdirSync] at h
    | dir es =>
      obtain ⟨t2, hfs', hcase⟩ := mkdirSync_cons_shape es n rest fs' h
      subst hfs'
      cases q with
      | nil => simp [fsLookup_nil]
      | cons m qr =>
        by_cases hm : m = n
        · subst hm
          rw [fsLookup_dir_cons, getEntry_setEntry_self]
          rw [fsLookup_dir_cons] at hq
          rcases hcase with ⟨t, hg, hmk⟩ | ⟨hg, hmk⟩
          · rw [hg] at hq
            exact ih t t2 hmk qr hq
          · rw [hg] at hq
            simp at hq
        · rw [fsLookup_dir_cons, getEntry_setEntry_ne es n m t2 hm]
          rw [fsLookup_dir_cons] at hq
          exact hq

/-- Two resolved paths that do not overlap: neither is an ancestor-or-self
of the other. -/
def Incomp (p q : List String) : Prop := ¬ p <+: q ∧ ¬ q <+: p

/-- Executable overlap test matching `Incomp`. -/
def pathsDisjoint (p q : List String) : Bool :=
  !(List.isPrefixOf p q) && !(List.isPrefixOf q p)

theorem pathsDisjoint_iff (p q : List String) :
    pathsDisjoint p q = true ↔ Incomp p q := by
  unfold pathsDisjoint Incomp
  rw [Bool.and_eq_true, Bool.not_eq_true', Bool.not_eq_true']
  constructor
  · intro ⟨h1, h2⟩
    constructor
    · intro hh
      rw [← List.isPrefixOf_iff_prefix] at hh
      rw [h1] at hh
      exact Bool.noConfusion hh
    · intro hh
      rw [← List.isPrefixOf_iff_prefix] at hh
      rw [h2] at hh
      exact Bool.noConfusion hh
  · intro ⟨h1, h2⟩
    constructor
    · cases hb : List.isPrefixOf p q with
      | false => rfl
      | true => exact absurd (List.isPrefixOf_iff_prefix.mp hb) h1
    · cases hb : List.isPrefixOf q p with
      | false => rfl
      | true => exact absurd (List.isPrefixOf_iff_prefix.mp hb) h2

/-- Disjointness is preserved by arbitrary extension of both sides. -/
theorem incomp_append (src dest r1 r2 : List String) (h : Incomp src dest) :
    Incomp (src ++ r1) (dest ++ r2) := by
  obtain ⟨h1, h2⟩ := h
  constructor
  · intro hh
    have hs : src <+: dest ++ r2 := (List.prefix_append src r1).trans hh
    rcases List.prefix_or_prefix_of_prefix hs (List.prefix_append dest r2) with hc | hc
    · exact h1 hc
    · exact h2 hc
  · intro hh
    have hs : dest <+: src ++ r1 := (List.prefix_append dest r2).trans hh
    rcases List.prefix_or_prefix_of_prefix hs (List.prefix_append src r1) with hc | hc
    · exact h2 hc
    · exact h1 hc

/-- A path strictly inside `dest` is not comparable with a path inside
`dest` that continues with a different component. -/
theorem incomp_under_ne (dest : List String) (n m : String) (xs ys : List String)
    (h : n ≠ m) : Incomp (dest ++ (n :: xs)) (dest ++ (m :: ys)) := by
  constructor
  · intro hh
    rw [List.prefix_append_right_inj] at hh
    exact h (List.cons_prefix_cons.mp hh).1
  · intro hh
    rw [List.prefix_append_right_inj] at hh
    exact h ((List.cons_prefix_cons.mp hh).1).symm

/-- A lookup of an extension factors through the lookup of the base. -/
theorem fsLookup_append_some (fs : FSTree) (p q : List String) (t : FSTree)
    (h : fsLookup fs p = some t) : fsLookup fs (p ++ q) = fsLookup t q := by
  rw [fsLookup_append, h]
  rfl

/-- Equal lookups at a base give equal lookups at every extension. -/
theorem fsLookup_congr_ext (fs1 fs2 : FSTree) (p : List String)
    (h : fsLookup fs1 p = fsLookup fs2 p) (q : List String) :
    fsLookup fs1 (p ++ q) = fsLookup fs2 (p ++ q) := by
  rw [fsLookup_append, fsLookup_append, h]

/-- If the base is not a directory, strict extensions resolve to nothing. -/
theorem fsLookup_ext_none (fs : FSTree) (p : List String)
    (h : ∀ ds, fsLookup fs p ≠ some (FSTree.dir ds)) (q : List String) (hq : q ≠ []) :
    fsLookup fs (p ++ q) = none := by
  rw [fsLookup_append]
  cases hl : fsLookup fs p with
  | none => rfl
  | some t =>
    cases t with
    | file c =>
      show fsLookup (FSTree.file c) q = none
      exact fsLookup_file_ne_nil c q hq
    | dir ds => exact absurd hl (h ds)

theorem getEntry_mem (es : List (String × FSTree)) (n : String) (t : FSTree)
    (h : getEntry es n = some t) : (n, t) ∈ es := by
  induction es with
  | nil => exact Option.noConfusion h
  | cons e rest ih =>
    by_cases he : e.1 = n
    · rw [getEntry, if_pos he, Option.some.injEq] at h
      subst h
      obtain ⟨a, u⟩ := e
      simp only at he
      subst he
      exact List.mem_cons_self _ _
    · rw [getEntry, if_neg he] at h
      exact List.mem_cons_of_mem _ (ih h)

theorem wfEntries_getEntry (es : List (String × FSTree)) (n : String) (t : FSTree)
    (hwf : wfEntries es = true) (h : getEntry es n = some t) : wfTree t = true := by
  induction es with
  | nil => exact Option.noConfusion h
  | cons e rest ih =>
    rw [wfEntries, Bool.and_eq_true, Bool.and_eq_true] at hwf
    by_cases he : e.1 = n
    · rw [getEntry, if_pos he, Option.some.injEq] at h
      subst h
      exact hwf.1.2
    · rw [getEntry, if_neg he] at h
      exact ih hwf.2 h

theorem wfEntries_nodup (es : List (String × FSTree)) (hwf : wfEntries es = true) :
    (es.map Prod.fst).Nodup := by
  induction es with
  | nil => exact List.nodup_nil
  | cons e rest ih =>
    rw [wfEntries, Bool.and_eq_true, Bool.and_eq_true] at hwf
    rw [List.map_cons, List.nodup_cons]
    refine ⟨?_, ih hwf.2⟩
    intro hmem
    rw [List.mem_map] at hmem
    obtain ⟨e2, he2, hname⟩ := hmem
    have hfalse := hwf.1.1
    rw [Bool.not_eq_true'] at hfalse
    have htrue : rest.any (fun e2 => e2.1 == e.1) = true := by
      rw [List.any_eq_true]
      exact ⟨e2, he2, by rw [beq_iff_eq]; exact hname⟩
    rw [hfalse] at htrue
    exact Bool.noConfusion htrue

theorem copyDirSync_zero (fs : FSTree) (src dest : List String) :
    copyDirSync 0 fs src dest = CopyOut.fuelOut := by
  rw [copyDirSync]

theorem copyEntries_nil (fuel : Nat) (fs : FSTree) (src dest : List String) :
    copyEntries fuel fs src dest [] = CopyOut.ok fs := by
  rw [copyEntries]

theorem copyDirSync_succ (fuel : Nat) (fs : FSTree) (src dest : List String) :
    copyDirSync (fuel + 1) fs src dest =
      match (if existsSync fs dest then some fs else mkdirSync fs dest) with
      | none => CopyOut.err fs
      | some fs1 =>
        match readdirSync fs1 src with
        | none => CopyOut.err fs1
        | some entries => copyEntries fuel fs1 src dest entries := by
  rw [copyDirSync]

theorem copyEntries_cons (fuel : Nat) (fs : FSTree) (src dest : List String)
    (n : String) (b : Bool) (rest : List (String × Bool)) :
    copyEntries fuel fs src dest ((n, b) :: rest) =
      if b then
        match copyDirSync fuel fs (pathJoin src n) (pathJoin dest n) with
        | CopyOut.ok fs2 => copyEntries fuel fs2 src dest rest
        | other => other
      else
        match copyFileSync fs (pathJoin src n) (pathJoin dest n) with
        | some fs2 => copyEntries fuel fs2 src dest rest
        | none => CopyOut.err fs := by
  rw [copyEntries]

theorem append_extends_strictly (dest rel : List String) (h : rel ≠ []) :
    ¬ dest ++ rel <+: dest := by
  intro hh
  have hl := hh.length_le
  rw [List.length_append] at hl
  have : rel.length = 0 := by omega
  exact h (List.length_eq_zero.mp this)

theorem prefix_of_ext_cases (q dest ext : List String) (h : q <+: dest ++ ext) :
    q <+: dest ∨ dest <+: q :=
  List.prefix_or_prefix_of_prefix h (List.prefix_append dest ext)

theorem wf_getEntry_of_mem (es : List (String × FSTree)) (a : String) (t : FSTree)
    (hwf : wfEntries es = true) (hmem : (a, t) ∈ es) : getEntry es a = some t := by
  induction es with
  | nil => exact absurd hmem (List.not_mem_nil _)
  | cons e rest ih =>
    rw [wfEntries, Bool.and_eq_true, Bool.and_eq_true] at hwf
    rcases List.mem_cons.mp hmem with hh | hh
    · subst hh
      rw [getEntry, if_pos rfl]
    · by_cases he : e.1 = a
      · exfalso
        have hfalse := hwf.1.1
        rw [Bool.not_eq_true'] at hfalse
        have htrue : rest.any (fun e2 => e2.1 == e.1) = true := by
          rw [List.any_eq_true]
          exact ⟨(a, t), hh, by rw [beq_iff_eq]; exact he.symm⟩
        rw [hfalse] at htrue
        exact Bool.noConfusion htrue
      · rw [getEntry, if_neg he]
        exact ih hwf.2 hh

/-- What a completed run of `copyDirSync src dest` guarantees when `src`
and `dest` do not overlap: lookups away from `dest` are untouched, no node
disappears, every source file is copied to the corresponding relative path
under `dest`, destination entries with no source counterpart are untouched,
and every source directory has some node at the corresponding path. -/
def CopyPost (fs fs' : FSTree) (src dest : List String) : Prop :=
  (∀ q, ¬ q <+: dest → ¬ dest <+: q → fsLookup fs' q = fsLookup fs q) ∧
  (∀ q, (fsLookup fs q).isSome → (fsLookup fs' q).isSome) ∧
  (∀ rel c, fsLookup fs (src ++ rel) = some (FSTree.file c) →
     fsLookup fs' (dest ++ rel) = some (FSTree.file c)) ∧
  (∀ rel, fsLookup fs (src ++ rel) = none →
     fsLookup fs' (dest ++ rel) = fsLookup fs (dest ++ rel)) ∧
  (∀ rel ds, fsLookup fs (src ++ rel) = some (FSTree.dir ds) →
     (fsLookup fs' (dest ++ rel)).isSome)

/-- The loop invariant corresponding to `CopyPost` for a suffix `es` of the
entry list being processed. -/
def EntriesPost (fs fs' : FSTree) (src dest : List String)
    (es : List (String × Bool)) : Prop :=
  (∀ q, ¬ q <+: dest → ¬ dest <+: q → fsLookup fs' q = fsLookup fs q) ∧
  (∀ q, (fsLookup fs q).isSome → (fsLookup fs' q).isSome) ∧
  (∀ m qr, (∀ b : Bool, (m, b) ∉ es) →
     fsLookup fs' (dest ++ (m :: qr)) = fsLookup fs (dest ++ (m :: qr))) ∧
  (∀ n b rel' c, ((n, b) : String × Bool) ∈ es →
     fsLookup fs (src ++ (n :: rel')) = some (FSTree.file c) →
     fsLookup fs' (dest ++ (n :: rel')) = some (FSTree.file c)) ∧
  (∀ rel, fsLookup fs (src ++ rel) = none →
     fsLookup fs' (dest ++ rel) = fsLookup fs (dest ++ rel)) ∧
  (∀ n b rel' ds, ((n, b) : String × Bool) ∈ es →
     fsLookup fs (src ++ (n :: rel')) = some (FSTree.dir ds) →
     (fsLookup fs' (dest ++ (n :: rel'))).isSome)

theorem entriesPost_rfl (fs : FSTree) (src dest : List String) :
    EntriesPost fs fs src dest [] := by
  refine ⟨fun q _ _ => rfl, fun q h => h, fun m qr _ => rfl, ?_, fun rel _ => rfl, ?_⟩
  · intro n b rel' c hmem _
    exact absurd hmem (List.not_mem_nil _)
  · intro n b rel' ds hmem _
    exact absurd hmem (List.not_mem_nil _)

theorem pathJoin_eq (p : List String) (n : String) : pathJoin p n = p ++ [n] := rfl

theorem incomp_ext_right (src dest : List String) (h : Incomp src dest) (r : List String) :
    Incomp src (dest ++ r) := by
  have hh := incomp_append src dest [] r h
  rwa [List.append_nil] at hh

theorem incomp_ext_trans (q dest : List String) (hq1 : ¬ q <+: dest) (hq2 : ¬ dest <+: q)
    (ext : List String) : ¬ q <+: dest ++ ext ∧ ¬ (dest ++ ext) <+: q := by
  constructor
  · intro hh
    rcases prefix_of_ext_cases q dest ext hh with h | h
    · exact hq1 h
    · exact hq2 h
  · intro hh
    exact hq2 ((List.prefix_append dest ext).trans hh)

theorem fsLookup_dir_cons_some (es : List (String × FSTree)) (n : String)
    (rest : List String) (t : FSTree) (hg : getEntry es n = some t) :
    fsLookup (FSTree.dir es) (n :: rest) = fsLookup t rest := by
  rw [fsLookup_dir_cons, hg]

theorem fsLookup_dir_cons_none (es : List (String × FSTree)) (n : String)
    (rest : List String) (hg : getEntry es n = none) :
    fsLookup (FSTree.dir es) (n :: rest) = none := by
  rw [fsLookup_dir_cons, hg]

theorem not_mem_pairs_of_nodup (n : String) (rest : List (String × Bool))
    (h : n ∉ rest.map Prod.fst) : ∀ b : Bool, (n, b) ∉ rest :=
  fun b hb => h (List.mem_map.mpr ⟨(n, b), hb, rfl⟩)

theorem append_cons_assoc (p : List String) (n : String) (q : List String) :
    p ++ (n :: q) = (p ++ [n]) ++ q := by
  rw [List.append_assoc]
  rfl

/-- Induction package: what every completed `copyDirSync` at a given fuel
guarantees on non-overlapping, well-formed sources. -/
def CopyDirOk (fuel : Nat) : Prop :=
  ∀ fs src dest fs', Incomp src dest →
    (∀ t, fsLookup fs src = some t → wfTree t = true) →
    copyDirSync fuel fs src dest = CopyOut.ok fs' →
    CopyPost fs fs' src dest

/-- Induction package for the entry loop. -/
def CopyEntriesOk (fuel : Nat) : Prop :=
  ∀ es fs src dest ses fs', Incomp src dest →
    fsLookup fs src = some (FSTree.dir ses) →
    wfEntries ses = true →
    (∀ n b, ((n, b) : String × Bool) ∈ es → ∃ t, getEntry ses n = some t ∧ b = isDirNode t) →
    (es.map Prod.fst).Nodup →
    copyEntries fuel fs src dest es = CopyOut.ok fs' →
    EntriesPost fs fs' src dest es

theorem copyEntriesOk_of_copyDirOk (fuel : Nat) (hA : CopyDirOk fuel) : CopyEntriesOk fuel := by
  intro es
  induction es with
  | nil =>
    intro fs src dest ses fs' _ _ _ _ _ hrun
    rw [copyEntries_nil] at hrun
    injection hrun with h
    subst h
    exact entriesPost_rfl fs src dest
  | cons e rest ih =>
    obtain ⟨n, b⟩ := e
    intro fs src dest ses fs' hinc hsrc hwf hes hnd hrun
    rw [copyEntries_cons, pathJoin_eq, pathJoin_eq] at hrun
    obtain ⟨t, hg, hb⟩ := hes n b (List.mem_cons_self _ _)
    have hnd' : n ∉ rest.map Prod.fst ∧ (rest.map Prod.fst).Nodup := by
      rw [List.map_cons, List.nodup_cons] at hnd
      exact hnd
    have hnotin : ∀ b' : Bool, (n, b') ∉ rest := not_mem_pairs_of_nodup n rest hnd'.1
    have hincS : Incomp src (dest ++ [n]) := incomp_ext_right src dest hinc [n]
    have hincD : Incomp (src ++ [n]) (dest ++ [n]) := incomp_append src dest [n] [n] hinc
    have hesrest : ∀ n' b', ((n', b') : String × Bool) ∈ rest →
        ∃ t', getEntry ses n' = some t' ∧ b' = isDirNode t' :=
      fun n' b' hm => hes n' b' (List.mem_cons_of_mem _ hm)
    cases b with
    | false =>
      cases t with
      | dir tes => simp [isDirNode] at hb
      | file c0 =>
        have hsfile : fsLookup fs (src ++ [n]) = some (FSTree.file c0) := by
          rw [fsLookup_append_some fs src [n] (FSTree.dir ses) hsrc,
            fsLookup_dir_cons_some ses n [] (FSTree.file c0) hg]
          exact fsLookup_nil _
        have hcf : copyFileSync fs (src ++ [n]) (dest ++ [n]) =
            writeFileSync fs (dest ++ [n]) c0 := by
          rw [copyFileSync, readFileSync, hsfile]
        rw [if_neg Bool.false_ne_true, hcf] at hrun
        cases hw : writeFileSync fs (dest ++ [n]) c0 with
        | none =>
          rw [hw] at hrun
          have h2 : CopyOut.err fs = CopyOut.ok fs' := hrun
          exact CopyOut.noConfusion h2
        | some fs2 =>
          rw [hw] at hrun
          have hrun2 : copyEntries fuel fs2 src dest rest = CopyOut.ok fs' := hrun
          have hfr : ∀ q, ¬ q <+: dest ++ [n] → fsLookup fs2 q = fsLookup fs q :=
            fun q hq => writeFileSync_frame (dest ++ [n]) fs fs2 c0 hw q hq
          have hsrc2 : fsLookup fs2 src = some (FSTree.dir ses) := by
            rw [hfr src hincS.1]
            exact hsrc
          have hsub : ∀ rel, fsLookup fs2 (src ++ rel) = fsLookup fs (src ++ rel) :=
            fsLookup_congr_ext fs2 fs src (hsrc2.trans hsrc.symm)
          obtain ⟨ep1, ep2, ep3, ep4, ep5, ep6⟩ :=
            ih fs2 src dest ses fs' hinc hsrc2 hwf hesrest hnd'.2 hrun2
          have hpw : fsLookup fs2 (dest ++ [n]) = some (FSTree.file c0) :=
            writeFileSync_lookup (dest ++ [n]) fs fs2 c0 hw
          refine ⟨?_, ?_, ?_, ?_, ?_, ?_⟩
          · intro q hq1 hq2
            have hcomp := incomp_ext_trans q dest hq1 hq2 [n]
            rw [ep1 q hq1 hq2, hfr q hcomp.1]
          · intro q hq
            exact ep2 q (writeFileSync_mono (dest ++ [n]) fs fs2 c0 hw q hq)
          · intro m qr hm
            have hmn : m ≠ n := fun hh =>
              hm false (by rw [hh]; exact List.mem_cons_self _ _)
            have hincU := incomp_under_ne dest m n qr [] hmn
            rw [ep3 m qr (fun b' hb' => hm b' (List.mem_cons_of_mem _ hb')),
              hfr (dest ++ (m :: qr)) hincU.1]
          · intro n' b' rel' c hmem hlf
            rcases List.mem_cons.mp hmem with hh | hh
            · have hn' : n' = n := congrArg Prod.fst hh
              subst hn'
              rw [append_cons_assoc src n' rel',
                fsLookup_append_some fs (src ++ [n']) rel' (FSTree.file c0) hsfile] at hlf
              cases rel' with
              | cons x xs =>
                rw [fsLookup_file_cons] at hlf
                exact Option.noConfusion hlf
              | nil =>
                rw [fsLookup_nil, Option.some.injEq] at hlf
                injection hlf with hc
                subst hc
                rw [ep3 n' [] hnotin]
                exact hpw
            · exact ep4 n' b' rel' c hh (by rw [hsub (n' :: rel')]; exact hlf)
          · intro rel hnone
            cases rel with
            | nil =>
              rw [List.append_nil, hsrc] at hnone
              exact Option.noConfusion hnone
            | cons m rel'' =>
              have hnone2 : fsLookup fs2 (src ++ (m :: rel'')) = none := by
                rw [hsub (m :: rel'')]
                exact hnone
              rw [ep5 (m :: rel'') hnone2]
              by_cases hmn : m = n
              · subst hmn
                rw [append_cons_assoc src m rel'',
                  fsLookup_append_some fs (src ++ [m]) rel'' (FSTree.file c0) hsfile] at hnone
                have hne : rel'' ≠ [] := by
                  intro hh2
                  subst hh2
                  rw [fsLookup_nil] at hnone
                  exact Option.noConfusion hnone
                rw [append_cons_assoc dest m rel'']
                rw [fsLookup_ext_none fs2 (dest ++ [m]) (fun ds hds => by
                    rw [hpw, Option.some.injEq] at hds
                    exact FSTree.noConfusion hds) rel'' hne,
                  fsLookup_ext_none fs (dest ++ [m])
                    (writeFileSync_not_dir (dest ++ [m]) fs fs2 c0 hw) rel'' hne]
              · have hincU := incomp_under_ne dest m n rel'' [] hmn
                exact hfr (dest ++ (m :: rel'')) hincU.1
          · intro n' b' rel' ds hmem hld
            rcases List.mem_cons.mp hmem with hh | hh
            · have hn' : n' = n := congrArg Prod.fst hh
              subst hn'
              rw [append_cons_assoc src n' rel',
                fsLookup_append_some fs (src ++ [n']) rel' (FSTree.file c0) hsfile] at hld
              cases rel' with
              | nil =>
                rw [fsLookup_nil, Option.some.injEq] at hld
                exact FSTree.noConfusion hld
              | cons x xs =>
                rw [fsLookup_file_cons] at hld
                exact Option.noConfusion hld
            · exact ep6 n' b' rel' ds hh (by rw [hsub (n' :: rel')]; exact hld)
    | true =>
      cases t with
      | file c0 => simp [isDirNode] at hb
      | dir tes =>
        have hsdir : fsLookup fs (src ++ [n]) = some (FSTree.dir tes) := by
          rw [fsLookup_append_some fs src [n] (FSTree.dir ses) hsrc,
            fsLookup_dir_cons_some ses n [] (FSTree.dir tes) hg]
          exact fsLookup_nil _
        rw [if_pos rfl] at hrun
        cases hcd : copyDirSync fuel fs (src ++ [n]) (dest ++ [n]) with
        | err fse =>
          rw [hcd] at hrun
          have h2 : CopyOut.err fse = CopyOut.ok fs' := hrun
          exact CopyOut.noConfusion h2
        | fuelOut =>
          rw [hcd] at hrun
          have h2 : CopyOut.fuelOut = CopyOut.ok fs' := hrun
          exact CopyOut.noConfusion h2
        | ok fs2 =>
          rw [hcd] at hrun
          have hrun2 : copyEntries fuel fs2 src dest rest = CopyOut.ok fs' := hrun
          have hwfc : ∀ t', fsLookup fs (src ++ [n]) = some t' → wfTree t' = true := by
            intro t' ht'
            rw [hsdir, Option.some.injEq] at ht'
            subst ht'
            exact wfEntries_getEntry ses n (FSTree.dir tes) hwf hg
          obtain ⟨cp1, cp2, cp3, cp4, cp5⟩ :=
            hA fs (src ++ [n]) (dest ++ [n]) fs2 hincD hwfc hcd
          have hsrc2 : fsLookup fs2 src = some (FSTree.dir ses) := by
            rw [cp1 src hincS.1 hincS.2]
            exact hsrc
          have hsub : ∀ rel, fsLookup fs2 (src ++ rel) = fsLookup fs (src ++ rel) :=
            fsLookup_congr_ext fs2 fs src (hsrc2.trans hsrc.symm)
          obtain ⟨ep1, ep2, ep3, ep4, ep5, ep6⟩ :=
            ih fs2 src dest ses fs' hinc hsrc2 hwf hesrest hnd'.2 hrun2
          refine ⟨?_, ?_, ?_, ?_, ?_, ?_⟩
          · intro q hq1 hq2
            have hcomp := incomp_ext_trans q dest hq1 hq2 [n]
            rw [ep1 q hq1 hq2, cp1 q hcomp.1 hcomp.2]
          · intro q hq
            exact ep2 q (cp2 q hq)
          · intro m qr hm
            have hmn : m ≠ n := fun hh =>
              hm true (by rw [hh]; exact List.mem_cons_self _ _)
            have hincU := incomp_under_ne dest m n qr [] hmn
            rw [ep3 m qr (fun b' hb' => hm b' (List.mem_cons_of_mem _ hb')),
              cp1 (dest ++ (m :: qr)) hincU.1 hincU.2]
          · intro n' b' rel' c hmem hlf
            rcases List.mem_cons.mp hmem with hh | hh
            · have hn' : n' = n := congrArg Prod.fst hh
              subst hn'
              rw [append_cons_assoc src n' rel'] at hlf
              rw [ep3 n' rel' hnotin, append_cons_assoc dest n' rel']
              exact cp3 rel' c hlf
            · exact ep4 n' b' rel' c hh (by rw [hsub (n' :: rel')]; exact hlf)
          · intro rel hnone
            cases rel with
            | nil =>
              rw [List.append_nil, hsrc] at hnone
              exact Option.noConfusion hnone
            | cons m rel'' =>
              have hnone2 : fsLookup fs2 (src ++ (m :: rel'')) = none := by
                rw [hsub (m :: rel'')]
                exact hnone
              rw [ep5 (m :: rel'') hnone2]
              by_cases hmn : m = n
              · subst hmn
                rw [append_cons_assoc dest m rel'']
                rw [append_cons_assoc src m rel''] at hnone
                exact cp4 rel'' hnone
              · have hincU := incomp_under_ne dest m n rel'' [] hmn
                exact cp1 (dest ++ (m :: rel'')) hincU.1 hincU.2
          · intro n' b' rel' ds hmem hld
            rcases List.mem_cons.mp hmem with hh | hh
            · have hn' : n' = n := congrArg Prod.fst hh
              subst hn'
              rw [append_cons_assoc src n' rel'] at hld
              have hsome := cp5 rel' ds hld
              rw [append_cons_assoc dest n' rel']
              exact ep2 (dest ++ [n'] ++ rel') hsome
            · exact ep6 n' b' rel' ds hh (by rw [hsub (n' :: rel')]; exact hld)

theorem wfTree_dir (es : List (String × FSTree)) : wfTree (FSTree.dir es) = wfEntries es := by
  rw [wfTree]

theorem copyDirOk_succ (fuel : Nat) (hB : CopyEntriesOk fuel) : CopyDirOk (fuel + 1) := by
  intro fs src dest fs' hinc hwf hrun
  rw [copyDirSync_succ] at hrun
  cases hstep : (if existsSync fs dest then some fs else mkdirSync fs dest) with
  | none =>
    rw [hstep] at hrun
    exact CopyOut.noConfusion hrun
  | some fs1 =>
    rw [hstep] at hrun
    have hrun1 : (match readdirSync fs1 src with
        | none => CopyOut.err fs1
        | some entries => copyEntries fuel fs1 src dest entries) = CopyOut.ok fs' := hrun
    have hfr1 : ∀ q, ¬ q <+: dest → fsLookup fs1 q = fsLookup fs q := by
      by_cases hex : existsSync fs dest
      · rw [if_pos hex, Option.some.injEq] at hstep
        subst hstep
        exact fun q _ => rfl
      · rw [if_neg hex] at hstep
        exact fun q hq => mkdirSync_frame dest fs fs1 hstep q hq
    have hmono1 : ∀ q, (fsLookup fs q).isSome → (fsLookup fs1 q).isSome := by
      by_cases hex : existsSync fs dest
      · rw [if_pos hex, Option.some.injEq] at hstep
        subst hstep
        exact fun q h => h
      · rw [if_neg hex] at hstep
        exact fun q hq => mkdirSync_mono dest fs fs1 hstep q hq
    have hdest1 : (fsLookup fs1 dest).isSome := by
      by_cases hex : existsSync fs dest
      · rw [if_pos hex, Option.some.injEq] at hstep
        subst hstep
        exact hex
      · rw [if_neg hex] at hstep
        obtain ⟨es2, hl⟩ := mkdirSync_lookup dest fs fs1 hstep
        rw [hl]
        rfl
    cases hrd : readdirSync fs1 src with
    | none =>
      rw [hrd] at hrun1
      exact CopyOut.noConfusion hrun1
    | some entries =>
      rw [hrd] at hrun1
      have hrun2 : copyEntries fuel fs1 src dest entries = CopyOut.ok fs' := hrun1
      have hun : ∃ ses, fsLookup fs1 src = some (FSTree.dir ses) ∧
          entries = ses.map (fun e => (e.1, isDirNode e.2)) := by
        rw [readdirSync] at hrd
        cases hl : fsLookup fs1 src with
        | none =>
          rw [hl] at hrd
          exact Option.noConfusion hrd
        | some t =>
          cases t with
          | file c =>
            rw [hl] at hrd
            exact Option.noConfusion hrd
          | dir ses =>
            rw [hl, Option.some.injEq] at hrd
            exact ⟨ses, rfl, hrd.symm⟩
      obtain ⟨ses, hsrc1, hent⟩ := hun
      subst hent
      have hsrc0 : fsLookup fs src = some (FSTree.dir ses) := by
        rw [← hfr1 src hinc.1]
        exact hsrc1
      have hwfe : wfEntries ses = true := by
        have hh := hwf (FSTree.dir ses) hsrc0
        rwa [wfTree_dir] at hh
      have hes : ∀ n b, ((n, b) : String × Bool) ∈ ses.map (fun e => (e.1, isDirNode e.2)) →
          ∃ t, getEntry ses n = some t ∧ b = isDirNode t := by
        intro n b hmem
        rw [List.mem_map] at hmem
        obtain ⟨e, he, heq⟩ := hmem
        obtain ⟨a, u⟩ := e
        have ha : a = n := congrArg Prod.fst heq
        have hbu : isDirNode u = b := congrArg Prod.snd heq
        subst ha
        subst hbu
        exact ⟨u, wf_getEntry_of_mem ses a u hwfe he, rfl⟩
      have hndp : ((ses.map (fun e => (e.1, isDirNode e.2))).map Prod.fst).Nodup := by
        have hmm : (ses.map (fun e => (e.1, isDirNode e.2))).map Prod.fst = ses.map Prod.fst := by
          rw [List.map_map]
          rfl
        rw [hmm]
        exact wfEntries_nodup ses hwfe
      obtain ⟨ep1, ep2, ep3, ep4, ep5, ep6⟩ :=
        hB (ses.map (fun e => (e.1, isDirNode e.2))) fs1 src dest ses fs' hinc hsrc1 hwfe
          hes hndp hrun2
      have hsub : ∀ rel, fsLookup fs1 (src ++ rel) = fsLookup fs (src ++ rel) :=
        fsLookup_congr_ext fs1 fs src (hsrc1.trans hsrc0.symm)
      refine ⟨?_, ?_, ?_, ?_, ?_⟩
      · intro q hq1 hq2
        rw [ep1 q hq1 hq2, hfr1 q hq1]
      · intro q hq
        exact ep2 q (hmono1 q hq)
      · intro rel c hf
        cases rel with
        | nil =>
          rw [List.append_nil, hsrc0, Option.some.injEq] at hf
          exact FSTree.noConfusion hf
        | cons m rel' =>
          have hf1 : fsLookup fs1 (src ++ (m :: rel')) = some (FSTree.file c) := by
            rw [hsub (m :: rel')]
            exact hf
          have hg : ∃ t, getEntry ses m = some t := by
            cases hge : getEntry ses m with
            | none =>
              rw [fsLookup_append_some fs src (m :: rel') _ hsrc0,
                fsLookup_dir_cons_none ses m rel' hge] at hf
              exact Option.noConfusion hf
            | some t => exact ⟨t, rfl⟩
          obtain ⟨t, hge⟩ := hg
          have hmem : ((m, isDirNode t) : String × Bool) ∈
              ses.map (fun e => (e.1, isDirNode e.2)) :=
            List.mem_map.mpr ⟨(m, t), getEntry_mem ses m t hge, rfl⟩
          exact ep4 m (isDirNode t) rel' c hmem hf1
      · intro rel hnone
        cases rel with
        | nil =>
          rw [List.append_nil, hsrc0] at hnone
          exact Option.noConfusion hnone
        | cons m rel' =>
          have hnone1 : fsLookup fs1 (src ++ (m :: rel')) = none := by
            rw [hsub (m :: rel')]
            exact hnone
          rw [ep5 (m :: rel') hnone1]
          exact hfr1 (dest ++ (m :: rel')) (append_extends_strictly dest (m :: rel') (by simp))
      · intro rel ds hd
        cases rel with
        | nil =>
          rw [List.append_nil]
          exact ep2 dest hdest1
        | cons m rel' =>
          have hd1 : fsLookup fs1 (src ++ (m :: rel')) = some (FSTree.dir ds) := by
            rw [hsub (m :: rel')]
            exact hd
          have hg : ∃ t, getEntry ses m = some t := by
            cases hge : getEntry ses m with
            | none =>
              rw [fsLookup_append_some fs src (m :: rel') _ hsrc0,
                fsLookup_dir_cons_none ses m rel' hge] at hd
              exact Option.noConfusion hd
            | some t => exact ⟨t, rfl⟩
          obtain ⟨t, hge⟩ := hg
          have hmem : ((m, isDirNode t) : String × Bool) ∈
              ses.map (fun e => (e.1, isDirNode e.2)) :=
            List.mem_map.mpr ⟨(m, t), getEntry_mem ses m t hge, rfl⟩
          exact ep6 m (isDirNode t) rel' ds hmem hd1

theorem copyDirSync_spec : ∀ fuel, CopyDirOk fuel ∧ CopyEntriesOk fuel := by
  intro fuel
  induction fuel with
  | zero =>
    constructor
    · intro fs src dest fs' _ _ hrun
      rw [copyDirSync_zero] at hrun
      exact CopyOut.noConfusion hrun
    · exact copyEntriesOk_of_copyDirOk 0 (by
        intro fs src dest fs' _ _ hrun
        rw [copyDirSync_zero] at hrun
        exact CopyOut.noConfusion hrun)
  | succ fuel ih =>
    have hA : CopyDirOk (fuel + 1) := copyDirOk_succ fuel ih.2
    exact ⟨hA, copyEntriesOk_of_copyDirOk (fuel + 1) hA⟩

/-- Writing a fresh file into an existing directory succeeds whenever no
directory already occupies the destination name. -/
theorem writeFileSync_into_dir (p : List String) : ∀ (fs : FSTree)
    (es : List (String × FSTree)) (n : String) (c : List Nat),
    fsLookup fs p = some (FSTree.dir es) →
    (∀ ds, getEntry es n ≠ some (FSTree.dir ds)) →
    ∃ fs2, writeFileSync fs (p ++ [n]) c = some fs2 := by
  induction p with
  | nil =>
    intro fs es n c hp hnodir
    rw [fsLookup_nil, Option.some.injEq] at hp
    subst hp
    rw [List.nil_append]
    cases hge : getEntry es n with
    | none =>
      refine ⟨FSTree.dir (setEntry es n (FSTree.file c)), ?_⟩
      simp only [writeFileSync, hge]
    | some t =>
      cases t with
      | file c1 =>
        refine ⟨FSTree.dir (setEntry es n (FSTree.file c)), ?_⟩
        simp only [writeFileSync, hge]
      | dir ds => exact absurd hge (hnodir ds)
  | cons m rest ih =>
    intro fs es n c hp hnodir
    cases fs with
    | file c0 =>
      rw [fsLookup_file_cons] at hp
      exact Option.noConfusion hp
    | dir es0 =>
      rw [fsLookup_dir_cons] at hp
      cases hge : getEntry es0 m with
      | none =>
        rw [hge] at hp
        exact Option.noConfusion hp
      | some t =>
        rw [hge] at hp
        obtain ⟨t2, ht2⟩ := ih t es n c hp hnodir
        refine ⟨FSTree.dir (setEntry es0 m t2), ?_⟩
        have hne : rest ++ [n] ≠ [] := by simp
        cases hrn : rest ++ [n] with
        | nil => exact absurd hrn hne
        | cons r rs =>
          rw [show (m :: rest) ++ [n] = m :: (rest ++ [n]) from rfl, hrn]
          rw [hrn] at ht2
          simp only [writeFileSync, hge]
          show (match writeFileSync t (r :: rs) c with
            | some t2 => some (FSTree.dir (setEntry es0 m t2))
            | none => none) = some (FSTree.dir (setEntry es0 m t2))
          rw [ht2]

/-- `executeSyncMapping` always reports the mapping's own id. -/
theorem executeSyncMapping_id (fuel : Nat) (fs : FSTree) (m : SyncMapping)
    (r : SyncResult) (fs2 : FSTree)
    (h : executeSyncMapping fuel fs m = some (r, fs2)) : r.id = m.id := by
  rw [executeSyncMapping] at h
  split at h <;> try split at h <;> try split at h <;> try split at h
  all_goals first
    | exact Option.noConfusion h
    | (injection h with hh
       exact (congrArg (fun x => (Prod.fst x).id) hh).symm)

/-- The loop of `sync:executeAll` emits, in order, one result per enabled
mapping, carrying that mapping's id. -/
theorem executeAllGo_ids (fuel : Nat) : ∀ (ms : List SyncMapping) (fs : FSTree)
    (rs : List SyncResult) (fs2 : FSTree),
    executeAllGo fuel fs ms = some (rs, fs2) →
    rs.map (fun r => r.id) = (ms.filter (fun m => m.enabled)).map (fun m => m.id) := by
  intro ms
  induction ms with
  | nil =>
    intro fs rs fs2 h
    rw [executeAllGo] at h
    injection h with hh
    have hrs : rs = [] := (congrArg Prod.fst hh).symm
    subst hrs
    rfl
  | cons m rest ih =>
    intro fs rs fs2 h
    rw [executeAllGo] at h
    by_cases he : m.enabled
    · rw [if_pos he] at h
      cases hone : executeSyncMapping fuel fs m with
      | none =>
        rw [hone] at h
        exact Option.noConfusion h
      | some rfs =>
        obtain ⟨r, fsx⟩ := rfs
        rw [hone] at h
        have h2 : (match executeAllGo fuel fsx rest with
            | none => none
            | some (rs, fs3) => some (r :: rs, fs3)) = some (rs, fs2) := h
        cases hgo : executeAllGo fuel fsx rest with
        | none =>
          rw [hgo] at h2
          exact Option.noConfusion h2
        | some rsfs =>
          obtain ⟨rs2, fs3⟩ := rsfs
          rw [hgo] at h2
          injection h2 with hh
          have hrs : r :: rs2 = rs := congrArg Prod.fst hh
          subst hrs
          rw [List.map_cons, List.filter_cons, if_pos he, List.map_cons,
            executeSyncMapping_id fuel fs m r fsx hone, ih fsx rs2 fs3 hgo]
    · rw [if_neg he] at h
      rw [List.filter_cons, if_neg he]
      exact ih fs rs fs2 h

/-! ### Claims C1, C2, C3 -/

/-- C1 (counterexample): a mapping whose resolved source is an existing
file and whose resolved target is an existing directory for which
`executeOne` does NOT return a success result: the target directory already
contains a directory named like the source's base filename, so the write
throws `EISDIR` and the run is reported as a failure.  This refutes the
claim's unconditional success. -/
theorem c1_counterexample :
    fsLookup (FSTree.dir [("s", FSTree.file [1]), ("t", FSTree.dir [("s", FSTree.dir [])])])
        ["s"] = some (FSTree.file [1]) ∧
    fsLookup (FSTree.dir [("s", FSTree.file [1]), ("t", FSTree.dir [("s", FSTree.dir [])])])
        ["t"] = some (FSTree.dir [("s", FSTree.dir [])]) ∧
    executeSyncMapping 1
        (FSTree.dir [("s", FSTree.file [1]), ("t", FSTree.dir [("s", FSTree.dir [])])])
        { id := "m1", source := ["s"], target := ["t"], enabled := true } =
      some ({ id := "m1", success := false, error := some ioErrorText, detail := none },
        FSTree.dir [("s", FSTree.file [1]), ("t", FSTree.dir [("s", FSTree.dir [])])]) :=
  ⟨rfl, rfl, rfl⟩

/-- C1 (amended): for every mapping whose resolved source is an existing
file and whose resolved target exists and is a directory, provided the
path formed by joining the target directory with the source's base
filename is not itself an existing directory, `executeOne` copies the file
to that joined path (the file lands inside the target directory under its
original name, not at the target path itself) and returns a success
result. -/
theorem c1_file_into_directory (fuel : Nat) (fs : FSTree) (m : SyncMapping)
    (c : List Nat) (es : List (String × FSTree))
    (hsrc : fsLookup fs m.source = some (FSTree.file c))
    (htgt : fsLookup fs m.target = some (FSTree.dir es))
    (hnodir : ∀ ds, getEntry es (pathBasename m.source) ≠ some (FSTree.dir ds)) :
    ∃ fs2, executeSyncMapping fuel fs m =
        some ({ id := m.id, success := true, error := none,
                detail := some ("文件已同步: " ++ pathToString m.source ++ " → " ++
                  pathToString (pathJoin m.target (pathBasename m.source))) }, fs2) ∧
      fsLookup fs2 (pathJoin m.target (pathBasename m.source)) =
        some (FSTree.file c) := by
  obtain ⟨fs2, hw⟩ :=
    writeFileSync_into_dir m.target fs es (pathBasename m.source) c htgt hnodir
  refine ⟨fs2, ?_, ?_⟩
  · simp only [executeSyncMapping, hsrc, htgt, pathJoin_eq, hw]
  · rw [pathJoin_eq]
    exact writeFileSync_lookup (m.target ++ [pathBasename m.source]) fs fs2 c hw

/-- C1 (witness): the amended theorem applied at a concrete filesystem. -/
theorem c1_file_into_directory_witness :
    ∃ fs2, executeSyncMapping 1 (FSTree.dir [("s", FSTree.file [1]), ("t", FSTree.dir [])])
        { id := "m1", source := ["s"], target := ["t"], enabled := true } =
        some ({ id := "m1", success := true, error := none,
                detail := some ("文件已同步: " ++ pathToString ["s"] ++ " → " ++
                  pathToString (pathJoin ["t"] (pathBasename ["s"]))) }, fs2) ∧
      fsLookup fs2 (pathJoin ["t"] (pathBasename ["s"])) = some (FSTree.file [1]) :=
  c1_file_into_directory 1 (FSTree.dir [("s", FSTree.file [1]), ("t", FSTree.dir [])])
    { id := "m1", source := ["s"], target := ["t"], enabled := true } [1] []
    rfl rfl (fun _ h => Option.noConfusion h)

/-- C2: whenever the `sync:executeAll` handler returns, its results list
has exactly one entry per enabled mapping, in input order (witnessed by the
id sequence, duplicates preserved), with no entry for disabled mappings,
and the batch-level `success` flag is `true` regardless of individual
failures. -/
theorem c2_executeAll_results (fuel : Nat) (fs : FSTree) (ms : List SyncMapping)
    (batch : BatchSyncResult) (fs' : FSTree)
    (h : executeAll fuel fs ms = some (batch, fs')) :
    batch.results.map (fun r => r.id) =
      (ms.filter (fun m => m.enabled)).map (fun m => m.id) ∧
    batch.success = true := by
  rw [executeAll] at h
  cases hgo : executeAllGo fuel fs ms with
  | none =>
    rw [hgo] at h
    exact Option.noConfusion h
  | some rsfs =>
    obtain ⟨rs, fs2⟩ := rsfs
    rw [hgo] at h
    injection h with hh
    have hb : ({ success := true, results := rs, executed := rs.length,
                 failed := (rs.filter (fun r => !r.success)).length } :
        BatchSyncResult) = batch :=
      congrArg Prod.fst hh
    subst hb
    exact ⟨executeAllGo_ids fuel ms fs rs fs2 hgo, rfl⟩

/-- C2 (witness): a batch with one disabled and one enabled mapping
(including the spec's own example shape) produces exactly the enabled
mapping's result and an unconditionally true batch flag. -/
theorem c2_executeAll_results_witness :
    ({ success := true,
       results := [{ id := "2", success := true, error := none,
                     detail := some "文件已同步: /f → /g" }],
       executed := 1, failed := 0 } : BatchSyncResult).results.map (fun r => r.id) =
      (([ { id := "1", source := ["x"], target := ["y"], enabled := false },
          { id := "2", source := ["f"], target := ["g"], enabled := true } ]
        : List SyncMapping).filter (fun m => m.enabled)).map (fun m => m.id) ∧
    ({ success := true,
       results := [{ id := "2", success := true, error := none,
                     detail := some "文件已同步: /f → /g" }],
       executed := 1, failed := 0 } : BatchSyncResult).success = true :=
  c2_executeAll_results 1 (FSTree.dir [("f", FSTree.file [7])])
    [ { id := "1", source := ["x"], target := ["y"], enabled := false },
      { id := "2", source := ["f"], target := ["g"], enabled := true } ]
    _ (FSTree.dir [("f", FSTree.file [7]), ("g", FSTree.file [7])]) rfl

/-- C3: for every mapping whose resolved source path does not exist,
`executeOne` returns a failure result whose error message carries the
source path, and the filesystem is returned exactly as it was (no write is
performed). -/
theorem c3_missing_source_no_write (fuel : Nat) (fs : FSTree) (m : SyncMapping)
    (h : fsLookup fs m.source = none) :
    executeSyncMapping fuel fs m =
      some ({ id := m.id, success := false,
              error := some ("源路径不存在: " ++ pathToString m.source),
              detail := none }, fs) := by
  rw [executeSyncMapping, h]

/-- C3 (witness): the theorem applied at a concrete filesystem with a
missing source. -/
theorem c3_missing_source_no_write_witness :
    executeSyncMapping 0 (FSTree.dir [("t", FSTree.dir [])])
        { id := "g", source := ["nope"], target := ["t"], enabled := true } =
      some ({ id := "g", success := false,
              error := some ("源路径不存在: " ++ pathToString ["nope"]),
              detail := none }, FSTree.dir [("t", FSTree.dir [])]) :=
  c3_missing_source_no_write 0 (FSTree.dir [("t", FSTree.dir [])])
    { id := "g", source := ["nope"], target := ["t"], enabled := true } rfl

/-! ### Directory-tree reader: predicates and unfolding lemmas -/

theorem readTreeGo_zero (cmp : String → String → Ordering) (bad : List String → Bool)
    (fs : FSTree) (p : List String) : readTreeGo cmp bad fs 0 p = [] := by
  rw [readTreeGo]

theorem readTreeGo_succ (cmp : String → String → Ordering) (bad : List String → Bool)
    (fs : FSTree) (n : Nat) (p : List String) :
    readTreeGo cmp bad fs (n + 1) p =
      match readdirChecked bad fs p with
      | none => []
      | some entries => List.mergeSort (readNodes cmp bad fs n p entries) (nodeLe cmp) := by
  rw [readTreeGo]

theorem readNodes_nil (cmp : String → String → Ordering) (bad : List String → Bool)
    (fs : FSTree) (n : Nat) (p : List String) : readNodes cmp bad fs n p [] = [] := by
  rw [readNodes]

theorem readNodes_cons (cmp : String → String → Ordering) (bad : List String → Bool)
    (fs : FSTree) (n : Nat) (p : List String) (nm : String) (b : Bool)
    (rest : List (String × Bool)) :
    readNodes cmp bad fs n p ((nm, b) :: rest) =
      if keepEntry nm then
        FileTreeNode.mk nm (pathJoin p nm) b
            (if b then readTreeGo cmp bad fs n (pathJoin p nm) else []) ::
          readNodes cmp bad fs n p rest
      else readNodes cmp bad fs n p rest := by
  rw [readNodes]

mutual

/-- Every node of the forest, at every level, passes the hardcoded
exclusion test of the reader. -/
def nodeNamesOk : FileTreeNode → Bool
  | FileTreeNode.mk n _ _ cs => keepEntry n && forestNamesOk cs

def forestNamesOk : List FileTreeNode → Bool
  | [] => true
  | x :: rest => nodeNamesOk x && forestNamesOk rest

end

theorem forestNamesOk_iff (l : List FileTreeNode) :
    forestNamesOk l = true ↔ ∀ x ∈ l, nodeNamesOk x = true := by
  induction l with
  | nil => simp [forestNamesOk]
  | cons x rest ih =>
    rw [forestNamesOk, Bool.and_eq_true, ih]
    constructor
    · intro ⟨h1, h2⟩ y hy
      rcases List.mem_cons.mp hy with hh | hh
      · subst hh
        exact h1
      · exact h2 y hh
    · intro h
      exact ⟨h x (List.mem_cons_self _ _), fun y hy => h y (List.mem_cons_of_mem _ hy)⟩

theorem readNodes_names (cmp : String → String → Ordering) (bad : List String → Bool)
    (fs : FSTree) (n : Nat)
    (hT : ∀ p, forestNamesOk (readTreeGo cmp bad fs n p) = true) :
    ∀ (es : List (String × Bool)) (p : List String),
    forestNamesOk (readNodes cmp bad fs n p es) = true := by
  intro es
  induction es with
  | nil =>
    intro p
    rw [readNodes_nil]
    rfl
  | cons e rest ih =>
    intro p
    obtain ⟨nm, b⟩ := e
    rw [readNodes_cons]
    by_cases hk : keepEntry nm
    · rw [if_pos hk, forestNamesOk, Bool.and_eq_true]
      refine ⟨?_, ih p⟩
      rw [nodeNamesOk, Bool.and_eq_true]
      refine ⟨hk, ?_⟩
      cases b with
      | true =>
        rw [if_pos rfl]
        exact hT (pathJoin p nm)
      | false =>
        rw [if_neg Bool.false_ne_true]
        rfl
    · rw [if_neg hk]
      exact ih p

theorem readTreeGo_names (cmp : String → String → Ordering) (bad : List String → Bool)
    (fs : FSTree) : ∀ (n : Nat) (p : List String),
    forestNamesOk (readTreeGo cmp bad fs n p) = true := by
  intro n
  induction n with
  | zero =>
    intro p
    rw [readTreeGo_zero]
    rfl
  | succ n ih =>
    intro p
    rw [readTreeGo_succ]
    cases hrd : readdirChecked bad fs p with
    | none => rfl
    | some entries =>
      rw [forestNamesOk_iff]
      intro x hx
      rw [List.mem_mergeSort] at hx
      have hall := readNodes_names cmp bad fs n ih entries p
      rw [forestNamesOk_iff] at hall
      exact hall x hx

theorem readNodes_mem_of_keep (cmp : String → String → Ordering) (bad : List String → Bool)
    (fs : FSTree) (n : Nat) :
    ∀ (es : List (String × Bool)) (p : List String) (nm : String) (b : Bool),
    (nm, b) ∈ es → keepEntry nm = true →
    ∃ x ∈ readNodes cmp bad fs n p es, FileTreeNode.name x = nm := by
  intro es
  induction es with
  | nil =>
    intro p nm b hmem _
    exact absurd hmem (List.not_mem_nil _)
  | cons e rest ih =>
    intro p nm b hmem hk
    obtain ⟨nm0, b0⟩ := e
    rw [readNodes_cons]
    rcases List.mem_cons.mp hmem with hh | hh
    · have h0 : nm0 = nm := (congrArg Prod.fst hh).symm
      subst h0
      rw [if_pos hk]
      exact ⟨_, List.mem_cons_self _ _, rfl⟩
    · obtain ⟨x, hx, hname⟩ := ih p nm b hh hk
      by_cases hk0 : keepEntry nm0
      · rw [if_pos hk0]
        exact ⟨x, List.mem_cons_of_mem _ hx, hname⟩
      · rw [if_neg hk0]
        exact ⟨x, hx, hname⟩

/-- C6: at every level of the returned tree, no node's name begins with a
dot except the literal `.gitignore`, and no node is named `node_modules`
(`forestNamesOk` checks exactly the reader's keep-test recursively);
moreover every listed entry whose name passes the keep-test — in
particular a literal `.gitignore` — does appear at the top level when at
least one level is expanded. -/
theorem c6_reader_filter (cmp : String → String → Ordering) (bad : List String → Bool)
    (fs : FSTree) (p : List String) (d : Int) :
    forestNamesOk (readDirectoryTree cmp bad fs p d) = true ∧
    (∀ entries nm b, readdirChecked bad fs p = some entries → (nm, b) ∈ entries →
      keepEntry nm = true → 1 ≤ d →
      ∃ x ∈ readDirectoryTree cmp bad fs p d, FileTreeNode.name x = nm) := by
  constructor
  · exact readTreeGo_names cmp bad fs d.toNat p
  · intro entries nm b hrd hmem hk hd
    rw [readDirectoryTree]
    have hn : ∃ n : Nat, d.toNat = n + 1 := by
      refine ⟨d.toNat - 1, ?_⟩
      omega
    obtain ⟨n, hn⟩ := hn
    rw [hn, readTreeGo_succ, hrd]
    obtain ⟨x, hx, hname⟩ := readNodes_mem_of_keep cmp bad fs n entries p nm b hmem hk
    exact ⟨x, List.mem_mergeSort.mpr hx, hname⟩

/-- C6 (witness): the spec's example — `.git`, `.gitignore`,
`node_modules`, `src` — instantiated concretely. -/
theorem c6_reader_filter_witness :
    forestNamesOk (readDirectoryTree (fun a b => compare a b) (fun _ => false)
      (FSTree.dir [(".git", FSTree.dir []), (".gitignore", FSTree.file []),
        ("node_modules", FSTree.dir []), ("src", FSTree.dir [])]) [] 10) = true ∧
    (∃ x ∈ readDirectoryTree (fun a b => compare a b) (fun _ => false)
      (FSTree.dir [(".git", FSTree.dir []), (".gitignore", FSTree.file []),
        ("node_modules", FSTree.dir []), ("src", FSTree.dir [])]) [] 10,
      FileTreeNode.name x = ".gitignore") :=
  ⟨(c6_reader_filter (fun a b => compare a b) (fun _ => false)
      (FSTree.dir [(".git", FSTree.dir []), (".gitignore", FSTree.file []),
        ("node_modules", FSTree.dir []), ("src", FSTree.dir [])]) [] 10).1,
   (c6_reader_filter (fun a b => compare a b) (fun _ => false)
      (FSTree.dir [(".git", FSTree.dir []), (".gitignore", FSTree.file []),
        ("node_modules", FSTree.dir []), ("src", FSTree.dir [])]) [] 10).2
     [(".git", true), (".gitignore", false), ("node_modules", true), ("src", true)]
     ".gitignore" false rfl (by decide) (by decide) (by decide)⟩

/-- The ordering the comparator is meant to produce: directories before
files, same kind ordered by `cmp`. -/
def nodeRel (cmp : String → String → Ordering) (a b : FileTreeNode) : Prop :=
  (b.isDirectory = true → a.isDirectory = true) ∧
  (a.isDirectory = b.isDirectory → cmp a.name b.name ≠ Ordering.gt)

mutual

/-- Every children list of the forest is pairwise ordered by `nodeRel`. -/
def nodeDeepSorted (cmp : String → String → Ordering) : FileTreeNode → Prop
  | FileTreeNode.mk _ _ _ cs => List.Pairwise (nodeRel cmp) cs ∧ forestDeepSorted cmp cs

def forestDeepSorted (cmp : String → String → Ordering) : List FileTreeNode → Prop
  | [] => True
  | x :: rest => nodeDeepSorted cmp x ∧ forestDeepSorted cmp rest

end

theorem forestDeepSorted_iff (cmp : String → String → Ordering) (l : List FileTreeNode) :
    forestDeepSorted cmp l ↔ ∀ x ∈ l, nodeDeepSorted cmp x := by
  induction l with
  | nil => simp [forestDeepSorted]
  | cons x rest ih =>
    rw [forestDeepSorted, ih]
    constructor
    · intro ⟨h1, h2⟩ y hy
      rcases List.mem_cons.mp hy with hh | hh
      · subst hh
        exact h1
      · exact h2 y hh
    · intro h
      exact ⟨h x (List.mem_cons_self _ _), fun y hy => h y (List.mem_cons_of_mem _ hy)⟩


theorem ordering_bne_gt (o : Ordering) : (o != Ordering.gt) = true ↔ o ≠ Ordering.gt := by
  cases o <;> decide

theorem nodeLe_total (cmp : String → String → Ordering)
    (hto : ∀ x y, cmp x y = Ordering.gt → cmp y x ≠ Ordering.gt) :
    ∀ a b, (nodeLe cmp a b || nodeLe cmp b a) = true := by
  have hor : ∀ x y : String, (cmp x y != Ordering.gt) = true ∨ (cmp y x != Ordering.gt) = true := by
    intro x y
    cases hcv : cmp x y with
    | gt =>
      right
      rw [ordering_bne_gt]
      exact hto x y hcv
    | lt => left; rfl
    | eq => left; rfl
  intro a b
  cases ha : a.isDirectory <;> cases hb : b.isDirectory <;> simp [nodeLe, ha, hb]
  all_goals exact hor a.name b.name

theorem nodeLe_trans (cmp : String → String → Ordering)
    (htr : ∀ x y z, cmp x y ≠ Ordering.gt → cmp y z ≠ Ordering.gt → cmp x z ≠ Ordering.gt) :
    ∀ a b c, nodeLe cmp a b = true → nodeLe cmp b c = true → nodeLe cmp a c = true := by
  intro a b c hab hbc
  cases ha : a.isDirectory <;> cases hb : b.isDirectory <;> cases hc : c.isDirectory <;>
    simp [nodeLe, ha, hb, hc] at hab hbc ⊢
  all_goals (
    rw [ordering_bne_gt] at hab hbc ⊢
    exact htr a.name b.name c.name hab hbc)

theorem nodeLe_imp_nodeRel (cmp : String → String → Ordering) (a b : FileTreeNode)
    (h : nodeLe cmp a b = true) : nodeRel cmp a b := by
  rw [nodeRel]
  cases ha : a.isDirectory <;> cases hb : b.isDirectory <;>
    simp [nodeLe, ha, hb] at h ⊢
  · exact (ordering_bne_gt _).mp h
  · exact (ordering_bne_gt _).mp h

theorem readNodes_sorted (cmp : String → String → Ordering) (bad : List String → Bool)
    (fs : FSTree) (n : Nat)
    (hT : ∀ p, List.Pairwise (nodeRel cmp) (readTreeGo cmp bad fs n p) ∧
      forestDeepSorted cmp (readTreeGo cmp bad fs n p)) :
    ∀ (es : List (String × Bool)) (p : List String),
    ∀ x ∈ readNodes cmp bad fs n p es, nodeDeepSorted cmp x := by
  intro es
  induction es with
  | nil =>
    intro p x hx
    rw [readNodes_nil] at hx
    exact absurd hx (List.not_mem_nil _)
  | cons e rest ih =>
    intro p x hx
    obtain ⟨nm, b⟩ := e
    rw [readNodes_cons] at hx
    by_cases hk : keepEntry nm
    · rw [if_pos hk] at hx
      rcases List.mem_cons.mp hx with hh | hh
      · subst hh
        rw [nodeDeepSorted]
        cases b with
        | true =>
          rw [if_pos rfl]
          exact hT (pathJoin p nm)
        | false =>
          rw [if_neg Bool.false_ne_true]
          exact ⟨List.Pairwise.nil, trivial⟩
      · exact ih p x hh
    · rw [if_neg hk] at hx
      exact ih p x hx

theorem readTreeGo_sorted (cmp : String → String → Ordering) (bad : List String → Bool)
    (fs : FSTree)
    (htr : ∀ x y z, cmp x y ≠ Ordering.gt → cmp y z ≠ Ordering.gt → cmp x z ≠ Ordering.gt)
    (hto : ∀ x y, cmp x y = Ordering.gt → cmp y x ≠ Ordering.gt) :
    ∀ (n : Nat) (p : List String),
    List.Pairwise (nodeRel cmp) (readTreeGo cmp bad fs n p) ∧
    forestDeepSorted cmp (readTreeGo cmp bad fs n p) := by
  intro n
  induction n with
  | zero =>
    intro p
    rw [readTreeGo_zero]
    exact ⟨List.Pairwise.nil, trivial⟩
  | succ n ih =>
    intro p
    rw [readTreeGo_succ]
    cases hrd : readdirChecked bad fs p with
    | none => exact ⟨List.Pairwise.nil, trivial⟩
    | some entries =>
      constructor
      · exact (List.sorted_mergeSort (nodeLe_trans cmp htr) (nodeLe_total cmp hto)
          (readNodes cmp bad fs n p entries)).imp
            (fun hab => nodeLe_imp_nodeRel cmp _ _ hab)
      · rw [forestDeepSorted_iff]
        intro x hx
        rw [List.mem_mergeSort] at hx
        exact readNodes_sorted cmp bad fs n ih entries p x hx

/-- C7: at every level of the returned tree, every directory node precedes
every file node, and nodes of the same kind are ordered by the
(locale-aware, abstracted) comparison `cmp`, which is assumed to be a total
preorder in "not greater" form. -/
theorem c7_reader_sorted (cmp : String → String → Ordering) (bad : List String → Bool)
    (fs : FSTree) (p : List String) (d : Int)
    (htr : ∀ x y z, cmp x y ≠ Ordering.gt → cmp y z ≠ Ordering.gt → cmp x z ≠ Ordering.gt)
    (hto : ∀ x y, cmp x y = Ordering.gt → cmp y x ≠ Ordering.gt) :
    List.Pairwise (nodeRel cmp) (readDirectoryTree cmp bad fs p d) ∧
    forestDeepSorted cmp (readDirectoryTree cmp bad fs p d) :=
  readTreeGo_sorted cmp bad fs htr hto d.toNat p

/-- C7 (witness): the sortedness theorem applied at the spec's example tree
with the trivial (everything-equal) total preorder. -/
theorem c7_reader_sorted_witness :
    List.Pairwise (nodeRel (fun _ _ => Ordering.eq))
      (readDirectoryTree (fun _ _ => Ordering.eq) (fun _ => false)
        (FSTree.dir [(".gitignore", FSTree.file []), ("src", FSTree.dir [])]) [] 10) ∧
    forestDeepSorted (fun _ _ => Ordering.eq)
      (readDirectoryTree (fun _ _ => Ordering.eq) (fun _ => false)
        (FSTree.dir [(".gitignore", FSTree.file []), ("src", FSTree.dir [])]) [] 10) :=
  c7_reader_sorted (fun _ _ => Ordering.eq) (fun _ => false)
    (FSTree.dir [(".gitignore", FSTree.file []), ("src", FSTree.dir [])]) [] 10
    (fun _ _ _ _ _ h => Ordering.noConfusion h)
    (fun _ _ h => Ordering.noConfusion h)

mutual

/-- The forest expands at most `n` further levels: a node consumes one
level and its children must fit in the remainder. -/
def nodeDepthLe : FileTreeNode → Nat → Bool
  | FileTreeNode.mk _ _ _ cs, n =>
    match n with
    | 0 => false
    | Nat.succ m => forestDepthLe cs m

def forestDepthLe : List FileTreeNode → Nat → Bool
  | [], _ => true
  | x :: rest, n => nodeDepthLe x n && forestDepthLe rest n

end

theorem forestDepthLe_iff (l : List FileTreeNode) (n : Nat) :
    forestDepthLe l n = true ↔ ∀ x ∈ l, nodeDepthLe x n = true := by
  induction l with
  | nil => simp [forestDepthLe]
  | cons x rest ih =>
    rw [forestDepthLe, Bool.and_eq_true, ih]
    constructor
    · intro ⟨h1, h2⟩ y hy
      rcases List.mem_cons.mp hy with hh | hh
      · subst hh
        exact h1
      · exact h2 y hh
    · intro h
      exact ⟨h x (List.mem_cons_self _ _), fun y hy => h y (List.mem_cons_of_mem _ hy)⟩

theorem readNodes_depth (cmp : String → String → Ordering) (bad : List String → Bool)
    (fs : FSTree) (n : Nat)
    (hT : ∀ p, forestDepthLe (readTreeGo cmp bad fs n p) n = true) :
    ∀ (es : List (String × Bool)) (p : List String),
    ∀ x ∈ readNodes cmp bad fs n p es, nodeDepthLe x (n + 1) = true := by
  intro es
  induction es with
  | nil =>
    intro p x hx
    rw [readNodes_nil] at hx
    exact absurd hx (List.not_mem_nil _)
  | cons e rest ih =>
    intro p x hx
    obtain ⟨nm, b⟩ := e
    rw [readNodes_cons] at hx
    by_cases hk : keepEntry nm
    · rw [if_pos hk] at hx
      rcases List.mem_cons.mp hx with hh | hh
      · subst hh
        rw [nodeDepthLe]
        cases b with
        | true =>
          rw [if_pos rfl]
          exact hT (pathJoin p nm)
        | false =>
          rw [if_neg Bool.false_ne_true]
          rfl
      · exact ih p x hh
    · rw [if_neg hk] at hx
      exact ih p x hx

theorem readTreeGo_depth (cmp : String → String → Ordering) (bad : List String → Bool)
    (fs : FSTree) : ∀ (n : Nat) (p : List String),
    forestDepthLe (readTreeGo cmp bad fs n p) n = true := by
  intro n
  induction n with
  | zero =>
    intro p
    rw [readTreeGo_zero]
    rfl
  | succ n ih =>
    intro p
    rw [readTreeGo_succ]
    cases hrd : readdirChecked bad fs p with
    | none => rfl
    | some entries =>
      rw [forestDepthLe_iff]
      intro x hx
      rw [List.mem_mergeSort] at hx
      exact readNodes_depth cmp bad fs n ih entries p x hx

/-- C9: a non-positive depth yields an empty forest, and for every depth
`d` the returned tree expands at most `d` directory levels below the root:
a directory node reached at the last level carries an empty children list
(`forestDepthLe` at budget `0` only accepts `[]`). -/
theorem c9_reader_depth (cmp : String → String → Ordering) (bad : List String → Bool)
    (fs : FSTree) (p : List String) (d : Int) :
    (d ≤ 0 → readDirectoryTree cmp bad fs p d = []) ∧
    forestDepthLe (readDirectoryTree cmp bad fs p d) d.toNat = true := by
  constructor
  · intro hd
    have hz : d.toNat = 0 := by omega
    rw [readDirectoryTree, hz, readTreeGo_zero]
  · exact readTreeGo_depth cmp bad fs d.toNat p

/-- C9 (witness): depth `-1` returns nothing, and depth 1 on a two-level
tree is cut after one level. -/
theorem c9_reader_depth_witness :
    readDirectoryTree (fun _ _ => Ordering.eq) (fun _ => false)
      (FSTree.dir [("a", FSTree.dir [("b", FSTree.dir [])])]) [] (-1) = [] ∧
    forestDepthLe (readDirectoryTree (fun _ _ => Ordering.eq) (fun _ => false)
      (FSTree.dir [("a", FSTree.dir [("b", FSTree.dir [])])]) [] 1) 1 = true :=
  ⟨(c9_reader_depth (fun _ _ => Ordering.eq) (fun _ => false)
      (FSTree.dir [("a", FSTree.dir [("b", FSTree.dir [])])]) [] (-1)).1 (by decide),
   (c9_reader_depth (fun _ _ => Ordering.eq) (fun _ => false)
      (FSTree.dir [("a", FSTree.dir [("b", FSTree.dir [])])]) [] 1).2⟩

theorem readNodes_local (cmp : String → String → Ordering) (fs : FSTree) (n : Nat)
    (ihn : ∀ (bad1 bad2 : List String → Bool) (p : List String),
      (∀ q, p <+: q → bad1 q = bad2 q) →
      readTreeGo cmp bad1 fs n p = readTreeGo cmp bad2 fs n p) :
    ∀ (es : List (String × Bool)) (bad1 bad2 : List String → Bool) (p : List String),
    (∀ q, p <+: q → bad1 q = bad2 q) →
    readNodes cmp bad1 fs n p es = readNodes cmp bad2 fs n p es := by
  intro es
  induction es with
  | nil =>
    intro bad1 bad2 p _
    rw [readNodes_nil, readNodes_nil]
  | cons e rest ih =>
    intro bad1 bad2 p h
    obtain ⟨nm, b⟩ := e
    rw [readNodes_cons, readNodes_cons]
    have hchild : ∀ q, pathJoin p nm <+: q → bad1 q = bad2 q := by
      intro q hq
      exact h q ((List.prefix_append p [nm]).trans hq)
    by_cases hk : keepEntry nm
    · rw [if_pos hk, if_pos hk, ih bad1 bad2 p h]
      cases b with
      | true => rw [if_pos rfl, if_pos rfl, ihn bad1 bad2 (pathJoin p nm) hchild]
      | false => rfl
    · rw [if_neg hk, if_neg hk]
      exact ih bad1 bad2 p h

theorem readTreeGo_local (cmp : String → String → Ordering) (fs : FSTree) :
    ∀ (n : Nat) (bad1 bad2 : List String → Bool) (p : List String),
    (∀ q, p <+: q → bad1 q = bad2 q) →
    readTreeGo cmp bad1 fs n p = readTreeGo cmp bad2 fs n p := by
  intro n
  induction n with
  | zero =>
    intro bad1 bad2 p _
    rw [readTreeGo_zero, readTreeGo_zero]
  | succ n ih =>
    intro bad1 bad2 p h
    rw [readTreeGo_succ, readTreeGo_succ, readdirChecked, readdirChecked,
      h p (List.prefix_refl p)]
    cases hb : bad2 p with
    | true => rfl
    | false =>
      cases hrd : readdirSync fs p with
      | none => rfl
      | some entries =>
        show (readNodes cmp bad1 fs n p entries).mergeSort (nodeLe cmp) =
          (readNodes cmp bad2 fs n p entries).mergeSort (nodeLe cmp)
        rw [readNodes_local cmp fs n ih entries bad1 bad2 p h]

/-- C8: the reader never propagates a listing failure — an unlistable
directory (the oracle `bad` throwing, a missing path, or a file) yields
`[]` for that subtree — and the result at a path depends only on the
failure oracle at that path and below, so a listing failure in one
subdirectory cannot affect the results produced for sibling entries. -/
theorem c8_reader_error_containment (cmp : String → String → Ordering)
    (bad : List String → Bool) (fs : FSTree) (p : List String) (d : Int) :
    (readdirChecked bad fs p = none → readDirectoryTree cmp bad fs p d = []) ∧
    (∀ bad2 : List String → Bool, (∀ q, p <+: q → bad q = bad2 q) →
      readDirectoryTree cmp bad fs p d = readDirectoryTree cmp bad2 fs p d) := by
  constructor
  · intro hnone
    rw [readDirectoryTree]
    cases hn : d.toNat with
    | zero => rw [readTreeGo_zero]
    | succ n => rw [readTreeGo_succ, hnone]
  · intro bad2 h
    rw [readDirectoryTree, readDirectoryTree]
    exact readTreeGo_local cmp fs d.toNat bad bad2 p h

/-- C8 (witness): with an oracle that fails exactly under `c`, the subtree
at `c` reads empty, and the subtree at the sibling `b` is identical to the
one read with a never-failing oracle. -/
theorem c8_reader_error_containment_witness :
    (readDirectoryTree (fun _ _ => Ordering.eq) (fun q => q.head? == some "c")
      (FSTree.dir [("b", FSTree.dir [("x", FSTree.file [])]),
        ("c", FSTree.dir [("y", FSTree.file [])])]) ["c"] 3 = []) ∧
    (readDirectoryTree (fun _ _ => Ordering.eq) (fun q => q.head? == some "c")
      (FSTree.dir [("b", FSTree.dir [("x", FSTree.file [])]),
        ("c", FSTree.dir [("y", FSTree.file [])])]) ["b"] 3 =
     readDirectoryTree (fun _ _ => Ordering.eq) (fun _ => false)
      (FSTree.dir [("b", FSTree.dir [("x", FSTree.file [])]),
        ("c", FSTree.dir [("y", FSTree.file [])])]) ["b"] 3) :=
  ⟨(c8_reader_error_containment (fun _ _ => Ordering.eq) (fun q => q.head? == some "c")
      (FSTree.dir [("b", FSTree.dir [("x", FSTree.file [])]),
        ("c", FSTree.dir [("y", FSTree.file [])])]) ["c"] 3).1 rfl,
   (c8_reader_error_containment (fun _ _ => Ordering.eq) (fun q => q.head? == some "c")
      (FSTree.dir [("b", FSTree.dir [("x", FSTree.file [])]),
        ("c", FSTree.dir [("y", FSTree.file [])])]) ["b"] 3).2 (fun _ => false) (by
      intro q hq
      cases q with
      | nil =>
        rw [List.prefix_nil] at hq
        exact List.noConfusion hq
      | cons x xs =>
        have hx : "b" = x := (List.cons_prefix_cons.mp hq).1
        subst hx
        rfl)⟩

/-! ### Claims C4 and C5 -/

/-- C4 (counterexample): a completing `copyDirSync` run whose destination
is an ancestor of the source (paths overlap).  Before the call the source
file `a/b/f` holds byte `1`; the run completes successfully, yet the
corresponding destination path `a/f` afterwards holds byte `2` (the copy
first overwrote `a/b/f` through the nested `b` entry), so a source file is
not reproduced at its relative path under the target. -/
theorem c4_counterexample :
    copyDirSync 5
      (FSTree.dir [("a", FSTree.dir [("b", FSTree.dir
        [("b", FSTree.dir [("f", FSTree.file [2])]), ("f", FSTree.file [1])])])])
      ["a", "b"] ["a"] =
      CopyOut.ok (FSTree.dir [("a", FSTree.dir [("b", FSTree.dir
        [("b", FSTree.dir [("f", FSTree.file [2])]), ("f", FSTree.file [2])]),
        ("f", FSTree.file [2])])]) ∧
    fsLookup (FSTree.dir [("a", FSTree.dir [("b", FSTree.dir
        [("b", FSTree.dir [("f", FSTree.file [2])]), ("f", FSTree.file [1])])])])
      ["a", "b", "f"] = some (FSTree.file [1]) ∧
    fsLookup (FSTree.dir [("a", FSTree.dir [("b", FSTree.dir
        [("b", FSTree.dir [("f", FSTree.file [2])]), ("f", FSTree.file [2])]),
        ("f", FSTree.file [2])])])
      ["a", "f"] = some (FSTree.file [2]) := by
  refine ⟨?_, rfl, rfl⟩
  simp [copyDirSync_succ, copyEntries_cons, copyEntries_nil, copyDirSync_zero,
    existsSync, fsLookup, getEntry, mkdirSync, setEntry, readdirSync, isDirNode,
    pathJoin, copyFileSync, readFileSync, writeFileSync]

/-- C4 (amended): when the resolved source and target do not overlap
(neither is an ancestor-or-self of the other) and the source subtree lists
each name once per directory, a successful `copyDirSync` leaves every
source file at the corresponding relative path under the target with
identical content, and leaves every path under the target that has no
counterpart under the source exactly as it was before the call. -/
theorem c4_copy_directory (fuel : Nat) (fs fs' : FSTree) (src dest : List String)
    (hinc : pathsDisjoint src dest = true)
    (hwf : ∀ t, fsLookup fs src = some t → wfTree t = true)
    (hrun : copyDirSync fuel fs src dest = CopyOut.ok fs') :
    (∀ rel c, fsLookup fs (src ++ rel) = some (FSTree.file c) →
       fsLookup fs' (dest ++ rel) = some (FSTree.file c)) ∧
    (∀ rel, fsLookup fs (src ++ rel) = none →
       fsLookup fs' (dest ++ rel) = fsLookup fs (dest ++ rel)) := by
  have hp := (copyDirSync_spec fuel).1 fs src dest fs'
    ((pathsDisjoint_iff src dest).mp hinc) hwf hrun
  exact ⟨hp.2.2.1, hp.2.2.2.1⟩

/-- C4 (witness): a disjoint copy applied concretely — the source file
arrives under the target, the pre-existing unrelated target entry is
untouched. -/
theorem c4_copy_directory_witness :
    fsLookup (FSTree.dir [("s", FSTree.dir [("f", FSTree.file [1])]),
        ("t", FSTree.dir [("old", FSTree.file [9]), ("f", FSTree.file [1])])])
      (["t"] ++ ["f"]) = some (FSTree.file [1]) ∧
    fsLookup (FSTree.dir [("s", FSTree.dir [("f", FSTree.file [1])]),
        ("t", FSTree.dir [("old", FSTree.file [9]), ("f", FSTree.file [1])])])
      (["t"] ++ ["old"]) =
      fsLookup (FSTree.dir [("s", FSTree.dir [("f", FSTree.file [1])]),
        ("t", FSTree.dir [("old", FSTree.file [9])])]) (["t"] ++ ["old"]) := by
  have hc := c4_copy_directory 2
    (FSTree.dir [("s", FSTree.dir [("f", FSTree.file [1])]),
      ("t", FSTree.dir [("old", FSTree.file [9])])])
    (FSTree.dir [("s", FSTree.dir [("f", FSTree.file [1])]),
      ("t", FSTree.dir [("old", FSTree.file [9]), ("f", FSTree.file [1])])])
    ["s"] ["t"] (by decide)
    (fun t ht => by
      injection ht with h2
      rw [← h2]
      decide)
    (by simp [copyDirSync_succ, copyEntries_cons, copyEntries_nil, copyDirSync_zero,
      existsSync, fsLookup, getEntry, mkdirSync, setEntry, readdirSync, isDirNode,
      pathJoin, copyFileSync, readFileSync, writeFileSync])
  exact ⟨hc.1 ["f"] [1] rfl, hc.2 ["old"] rfl⟩

/-- A successful write never turns an existing directory into anything
else: every path that held a directory still holds one. -/
theorem writeFileSync_dir_preserved (w : List String) : ∀ (fs fs' : FSTree) (c : List Nat),
    writeFileSync fs w c = some fs' → ∀ (p : List String) (es : List (String × FSTree)),
    fsLookup fs p = some (FSTree.dir es) → ∃ es', fsLookup fs' p = some (FSTree.dir es') := by
  induction w with
  | nil =>
    intro fs fs' c h p es hp
    cases fs with
    | file c0 =>
      cases p with
      | nil =>
        rw [fsLookup_nil, Option.some.injEq] at hp
        exact FSTree.noConfusion hp
      | cons x xs =>
        rw [fsLookup_file_cons] at hp
        exact Option.noConfusion hp
    | dir es0 => simp [writeFileSync] at h
  | cons n wr ih =>
    intro fs fs' c h p es hp
    cases fs with
    | file c0 => simp [writeFileSync] at h
    | dir es0 =>
      obtain ⟨t2, hfs', hcase⟩ := writeFileSync_cons_shape es0 n wr c fs' h
      subst hfs'
      cases p with
      | nil => exact ⟨setEntry es0 n t2, rfl⟩
      | cons m pr =>
        rw [fsLookup_dir_cons] at hp
        by_cases hm : m = n
        · subst hm
          rw [fsLookup_dir_cons, getEntry_setEntry_self]
          cases hge : getEntry es0 m with
          | none =>
            rw [hge] at hp
            exact Option.noConfusion hp
          | some t =>
            rw [hge] at hp
            rcases hcase with ⟨hwr, ht2, hnd⟩ | ⟨hne, t', hg', hw'⟩
            · exfalso
              cases t with
              | dir ds => exact absurd hge (hnd ds)
              | file cf =>
                cases pr with
                | nil =>
                  have hp2 : some (FSTree.file cf) = some (FSTree.dir es) := hp
                  rw [Option.some.injEq] at hp2
                  exact FSTree.noConfusion hp2
                | cons y ys =>
                  have hp2 : fsLookup (FSTree.file cf) (y :: ys) = some (FSTree.dir es) := hp
                  rw [fsLookup_file_cons] at hp2
                  exact Option.noConfusion hp2
            · have hgt : t' = t := by
                rw [hg'] at hge
                exact (Option.some.injEq _ _ ▸ hge)
              subst hgt
              exact ih t' t2 c hw' pr es hp
        · rw [fsLookup_dir_cons, getEntry_setEntry_ne es0 n m t2 hm]
          exact ⟨es, hp⟩

/-- Induction package: when everything under `src` is already present
under `dest` (files with identical bytes, directories as existing nodes),
a run of `copyDirSync` leaves the filesystem untouched whatever happens. -/
def CopyIdOk (fuel : Nat) : Prop :=
  ∀ fs src dest ses, fsLookup fs src = some (FSTree.dir ses) →
    (∀ t, fsLookup fs src = some t → wfTree t = true) →
    (∀ rel c, fsLookup fs (src ++ rel) = some (FSTree.file c) →
      fsLookup fs (dest ++ rel) = some (FSTree.file c)) →
    (∀ rel ds, fsLookup fs (src ++ rel) = some (FSTree.dir ds) →
      (fsLookup fs (dest ++ rel)).isSome) →
    ∀ out, copyDirSync fuel fs src dest = out →
    out = CopyOut.ok fs ∨ out = CopyOut.err fs ∨ out = CopyOut.fuelOut

/-- The entry-loop version of `CopyIdOk`. -/
def CopyIdEntriesOk (fuel : Nat) : Prop :=
  ∀ es fs src dest ses, fsLookup fs src = some (FSTree.dir ses) →
    wfEntries ses = true →
    (∀ n b, ((n, b) : String × Bool) ∈ es → ∃ t, getEntry ses n = some t ∧ b = isDirNode t) →
    (∀ rel c, fsLookup fs (src ++ rel) = some (FSTree.file c) →
      fsLookup fs (dest ++ rel) = some (FSTree.file c)) →
    (∀ rel ds, fsLookup fs (src ++ rel) = some (FSTree.dir ds) →
      (fsLookup fs (dest ++ rel)).isSome) →
    ∀ out, copyEntries fuel fs src dest es = out →
    out = CopyOut.ok fs ∨ out = CopyOut.err fs ∨ out = CopyOut.fuelOut

theorem copyIdEntries_of (fuel : Nat) (hA : CopyIdOk fuel) : CopyIdEntriesOk fuel := by
  intro es
  induction es with
  | nil =>
    intro fs src dest ses _ _ _ _ _ out hout
    rw [copyEntries_nil] at hout
    exact Or.inl hout.symm
  | cons e rest ih =>
    obtain ⟨n, b⟩ := e
    intro fs src dest ses hsrc hwfe hes hc1 hc2 out hout
    rw [copyEntries_cons, pathJoin_eq, pathJoin_eq] at hout
    obtain ⟨t, hg, hb⟩ := hes n b (List.mem_cons_self _ _)
    have hesrest : ∀ n' b', ((n', b') : String × Bool) ∈ rest →
        ∃ t', getEntry ses n' = some t' ∧ b' = isDirNode t' :=
      fun n' b' hm => hes n' b' (List.mem_cons_of_mem _ hm)
    cases b with
    | false =>
      cases t with
      | dir tes => simp [isDirNode] at hb
      | file c0 =>
        have hsfile : fsLookup fs (src ++ [n]) = some (FSTree.file c0) := by
          rw [fsLookup_append_some fs src [n] (FSTree.dir ses) hsrc,
            fsLookup_dir_cons_some ses n [] (FSTree.file c0) hg]
          exact fsLookup_nil _
        have hdfile : fsLookup fs (dest ++ [n]) = some (FSTree.file c0) :=
          hc1 [n] c0 hsfile
        have hcf : copyFileSync fs (src ++ [n]) (dest ++ [n]) = some fs := by
          rw [copyFileSync, readFileSync, hsfile]
          exact writeFileSync_same (dest ++ [n]) fs c0 hdfile
        rw [if_neg Bool.false_ne_true, hcf] at hout
        have hout2 : copyEntries fuel fs src dest rest = out := hout
        exact ih fs src dest ses hsrc hwfe hesrest hc1 hc2 out hout2
    | true =>
      cases t with
      | file c0 => simp [isDirNode] at hb
      | dir tes =>
        rw [if_pos rfl] at hout
        have hsdir : fsLookup fs (src ++ [n]) = some (FSTree.dir tes) := by
          rw [fsLookup_append_some fs src [n] (FSTree.dir ses) hsrc,
            fsLookup_dir_cons_some ses n [] (FSTree.dir tes) hg]
          exact fsLookup_nil _
        have hwfc : ∀ t', fsLookup fs (src ++ [n]) = some t' → wfTree t' = true := by
          intro t' ht'
          rw [hsdir, Option.some.injEq] at ht'
          subst ht'
          exact wfEntries_getEntry ses n (FSTree.dir tes) hwfe hg
        have hc1c : ∀ rel c, fsLookup fs ((src ++ [n]) ++ rel) = some (FSTree.file c) →
            fsLookup fs ((dest ++ [n]) ++ rel) = some (FSTree.file c) := by
          intro rel c hrel
          rw [← append_cons_assoc] at hrel
          rw [← append_cons_assoc]
          exact hc1 (n :: rel) c hrel
        have hc2c : ∀ rel ds, fsLookup fs ((src ++ [n]) ++ rel) = some (FSTree.dir ds) →
            (fsLookup fs ((dest ++ [n]) ++ rel)).isSome := by
          intro rel ds hrel
          rw [← append_cons_assoc] at hrel
          rw [← append_cons_assoc]
          exact hc2 (n :: rel) ds hrel
        cases hcd : copyDirSync fuel fs (src ++ [n]) (dest ++ [n]) with
        | ok f =>
          rcases hA fs (src ++ [n]) (dest ++ [n]) tes hsdir hwfc hc1c hc2c
              (CopyOut.ok f) hcd with hh | hh | hh
          · injection hh with hf
            rw [hcd] at hout
            have hout2 : copyEntries fuel f src dest rest = out := hout
            rw [hf] at hout2
            exact ih fs src dest ses hsrc hwfe hesrest hc1 hc2 out hout2
          · exact CopyOut.noConfusion hh
          · exact CopyOut.noConfusion hh
        | err f =>
          rcases hA fs (src ++ [n]) (dest ++ [n]) tes hsdir hwfc hc1c hc2c
              (CopyOut.err f) hcd with hh | hh | hh
          · exact CopyOut.noConfusion hh
          · injection hh with hf
            rw [hcd] at hout
            have hout2 : CopyOut.err f = out := hout
            rw [hf] at hout2
            exact Or.inr (Or.inl hout2.symm)
          · exact CopyOut.noConfusion hh
        | fuelOut =>
          rw [hcd] at hout
          have hout2 : CopyOut.fuelOut = out := hout
          exact Or.inr (Or.inr hout2.symm)

theorem copyIdOk_succ (fuel : Nat) (hB : CopyIdEntriesOk fuel) : CopyIdOk (fuel + 1) := by
  intro fs src dest ses hsrc hwf hc1 hc2 out hout
  rw [copyDirSync_succ] at hout
  have hdest : (fsLookup fs dest).isSome := by
    have hh := hc2 [] ses (by rw [List.append_nil]; exact hsrc)
    rwa [List.append_nil] at hh
  have hex : existsSync fs dest = true := hdest
  rw [if_pos hex] at hout
  have hrd : readdirSync fs src = some (ses.map (fun e => (e.1, isDirNode e.2))) := by
    rw [readdirSync, hsrc]
  have hout2 : (match readdirSync fs src with
      | none => CopyOut.err fs
      | some entries => copyEntries fuel fs src dest entries) = out := hout
  rw [hrd] at hout2
  have hout3 : copyEntries fuel fs src dest (ses.map (fun e => (e.1, isDirNode e.2))) = out :=
    hout2
  have hwfe : wfEntries ses = true := by
    have hh := hwf (FSTree.dir ses) hsrc
    rwa [wfTree_dir] at hh
  have hes : ∀ n b, ((n, b) : String × Bool) ∈ ses.map (fun e => (e.1, isDirNode e.2)) →
      ∃ t, getEntry ses n = some t ∧ b = isDirNode t := by
    intro n b hmem
    rw [List.mem_map] at hmem
    obtain ⟨e, he, heq⟩ := hmem
    obtain ⟨a, u⟩ := e
    have ha : a = n := congrArg Prod.fst heq
    have hbu : isDirNode u = b := congrArg Prod.snd heq
    subst ha
    subst hbu
    exact ⟨u, wf_getEntry_of_mem ses a u hwfe he, rfl⟩
  exact hB (ses.map (fun e => (e.1, isDirNode e.2))) fs src dest ses hsrc hwfe hes
    hc1 hc2 out hout3

theorem copyIdSpec : ∀ fuel, CopyIdOk fuel ∧ CopyIdEntriesOk fuel := by
  intro fuel
  induction fuel with
  | zero =>
    have hA : CopyIdOk 0 := by
      intro fs src dest ses _ _ _ _ out hout
      rw [copyDirSync_zero] at hout
      exact Or.inr (Or.inr hout.symm)
    exact ⟨hA, copyIdEntries_of 0 hA⟩
  | succ fuel ih =>
    have hA : CopyIdOk (fuel + 1) := copyIdOk_succ fuel ih.2
    exact ⟨hA, copyIdEntries_of (fuel + 1) hA⟩

/-- When the source is a file and the target is not an existing directory,
`executeSyncMapping` takes the mkdir-parent-then-write branch. -/
theorem executeSyncMapping_file_nondir (fuel : Nat) (fs : FSTree) (m : SyncMapping)
    (c : List Nat)
    (hsrc : fsLookup fs m.source = some (FSTree.file c))
    (hnd : ∀ es, fsLookup fs m.target ≠ some (FSTree.dir es)) :
    executeSyncMapping fuel fs m =
      match (if existsSync fs (pathDirname m.target) then some fs
             else mkdirSync fs (pathDirname m.target)) with
      | none =>
        some ({ id := m.id, success := false, error := some ioErrorText,
                detail := none }, fs)
      | some fs1 =>
        match writeFileSync fs1 m.target c with
        | some fs2 =>
          some ({ id := m.id, success := true, error := none,
                  detail := some ("文件已同步: " ++ pathToString m.source ++ " → " ++
                    pathToString m.target) }, fs2)
        | none =>
          some ({ id := m.id, success := false, error := some ioErrorText,
                  detail := none }, fs1) := by
  rw [executeSyncMapping, hsrc]
  cases htg : fsLookup fs m.target with
  | none => rfl
  | some t =>
    cases t with
    | file cf => rfl
    | dir es => exact absurd htg (hnd es)

/-- Two consecutive runs on a file source whose target is not an existing
directory: the second run rewrites the same bytes at the same path, so the
filesystem does not change again. -/
theorem executeSync_idem_file_nondir (fuel : Nat) (fs : FSTree) (m : SyncMapping)
    (r1 r2 : SyncResult) (fs1 fs2 : FSTree) (c : List Nat)
    (hinc : Incomp m.source m.target) (hne : m.target ≠ [])
    (hsrc : fsLookup fs m.source = some (FSTree.file c))
    (hnd : ∀ es, fsLookup fs m.target ≠ some (FSTree.dir es))
    (h1 : executeSyncMapping fuel fs m = some (r1, fs1))
    (hs1 : r1.success = true)
    (h2 : executeSyncMapping fuel fs1 m = some (r2, fs2)) :
    fs2 = fs1 := by
  rw [executeSyncMapping_file_nondir fuel fs m c hsrc hnd] at h1
  cases hstep : (if existsSync fs (pathDirname m.target) then some fs
      else mkdirSync fs (pathDirname m.target)) with
  | none =>
    rw [hstep] at h1
    have h1b : some ({ id := m.id, success := false, error := some ioErrorText,
                       detail := none }, fs) = some (r1, fs1) := h1
    injection h1b with hh
    have hx : false = r1.success := congrArg (fun x : SyncResult × FSTree => x.1.success) hh
    rw [← hx] at hs1
    exact Bool.noConfusion hs1
  | some fs1a =>
    rw [hstep] at h1
    have h1c : (match writeFileSync fs1a m.target c with
        | some fs3 =>
          some ({ id := m.id, success := true, error := none,
                  detail := some ("文件已同步: " ++ pathToString m.source ++ " → " ++
                    pathToString m.target) }, fs3)
        | none =>
          some ({ id := m.id, success := false, error := some ioErrorText,
                  detail := none }, fs1a)) = some (r1, fs1) := h1
    cases hw : writeFileSync fs1a m.target c with
    | none =>
      rw [hw] at h1c
      have h1b : some ({ id := m.id, success := false, error := some ioErrorText,
                         detail := none }, fs1a) = some (r1, fs1) := h1c
      injection h1b with hh
      have hx : false = r1.success := congrArg (fun x : SyncResult × FSTree => x.1.success) hh
      rw [← hx] at hs1
      exact Bool.noConfusion hs1
    | some fs2' =>
      rw [hw] at h1c
      have h1b : some ({ id := m.id, success := true, error := none,
                         detail := some ("文件已同步: " ++ pathToString m.source ++ " → " ++
                           pathToString m.target) }, fs2') = some (r1, fs1) := h1c
      injection h1b with hh
      have hfs1 : fs2' = fs1 := congrArg Prod.snd hh
      rw [← hfs1] at h2 ⊢
      have hsa : fsLookup fs1a m.source = some (FSTree.file c) := by
        by_cases hb : existsSync fs (pathDirname m.target) = true
        · rw [if_pos hb] at hstep
          injection hstep with hfa
          rw [← hfa]
          exact hsrc
        · rw [if_neg hb] at hstep
          have hnsd : ¬ m.source <+: pathDirname m.target := by
            intro hh2
            exact hinc.1 (hh2.trans (List.dropLast_prefix m.target))
          rw [mkdirSync_frame (pathDirname m.target) fs fs1a hstep m.source hnsd]
          exact hsrc
      have hsrc1 : fsLookup fs2' m.source = some (FSTree.file c) := by
        rw [writeFileSync_frame m.target fs1a fs2' c hw m.source hinc.1]
        exact hsa
      have htgt1 : fsLookup fs2' m.target = some (FSTree.file c) :=
        writeFileSync_lookup m.target fs1a fs2' c hw
      have hnd1 : ∀ es, fsLookup fs2' m.target ≠ some (FSTree.dir es) := by
        intro es hh2
        rw [htgt1] at hh2
        injection hh2 with hx
        exact FSTree.noConfusion hx
      rw [executeSyncMapping_file_nondir fuel fs2' m c hsrc1 hnd1] at h2
      have htd : existsSync fs2' (pathDirname m.target) = true := by
        cases hl : fsLookup fs2' (pathDirname m.target) with
        | some t => rw [existsSync, hl]; rfl
        | none =>
          exfalso
          have happ := fsLookup_append (pathDirname m.target) [m.target.getLast hne] fs2'
          rw [hl] at happ
          have happ2 : fsLookup fs2'
              (pathDirname m.target ++ [m.target.getLast hne]) = none := happ
          have hsplit : pathDirname m.target ++ [m.target.getLast hne] = m.target :=
            List.dropLast_append_getLast hne
          rw [hsplit, htgt1] at happ2
          exact Option.noConfusion happ2
      rw [if_pos htd] at h2
      have h2b : (match writeFileSync fs2' m.target c with
          | some fs3 =>
            some ({ id := m.id, success := true, error := none,
                    detail := some ("文件已同步: " ++ pathToString m.source ++ " → " ++
                      pathToString m.target) }, fs3)
          | none =>
            some ({ id := m.id, success := false, error := some ioErrorText,
                    detail := none }, fs2')) = some (r2, fs2) := h2
      have hw2 : writeFileSync fs2' m.target c = some fs2' :=
        writeFileSync_same m.target fs2' c htgt1
      rw [hw2] at h2b
      have h2c : some ({ id := m.id, success := true, error := none,
                         detail := some ("文件已同步: " ++ pathToString m.source ++ " → " ++
                           pathToString m.target) }, fs2') = some (r2, fs2) := h2b
      injection h2c with hh2
      exact (congrArg Prod.snd hh2).symm

/-- C5 (counterexample): when the target contains the source, `executeOne`
is not idempotent.  With source `/a/b` and target `/a`, the first run
copies `/a/b/b/g` to `/a/b/g` (mutating the source tree itself); the
second run then also copies the newly appeared `/a/b/g` to `/a/g`, so the
state after the second run differs from the state after the first — both
runs reporting success, with no intervening change by anyone else. -/
theorem c5_counterexample :
    executeSyncMapping 5
        (FSTree.dir [("a", FSTree.dir [("b", FSTree.dir
          [("b", FSTree.dir [("g", FSTree.file [7])])])])])
        { id := "m", source := ["a", "b"], target := ["a"], enabled := true } =
      some ({ id := "m", success := true, error := none,
              detail := some ("目录已同步: " ++ pathToString ["a", "b"] ++ " → " ++
                pathToString ["a"]) },
        FSTree.dir [("a", FSTree.dir [("b", FSTree.dir
          [("b", FSTree.dir [("g", FSTree.file [7])]),
           ("g", FSTree.file [7])])])]) ∧
    executeSyncMapping 5
        (FSTree.dir [("a", FSTree.dir [("b", FSTree.dir
          [("b", FSTree.dir [("g", FSTree.file [7])]),
           ("g", FSTree.file [7])])])])
        { id := "m", source := ["a", "b"], target := ["a"], enabled := true } =
      some ({ id := "m", success := true, error := none,
              detail := some ("目录已同步: " ++ pathToString ["a", "b"] ++ " → " ++
                pathToString ["a"]) },
        FSTree.dir [("a", FSTree.dir
          [("b", FSTree.dir
            [("b", FSTree.dir [("g", FSTree.file [7])]),
             ("g", FSTree.file [7])]),
           ("g", FSTree.file [7])])]) ∧
    fsLookup
        (FSTree.dir [("a", FSTree.dir
          [("b", FSTree.dir
            [("b", FSTree.dir [("g", FSTree.file [7])]),
             ("g", FSTree.file [7])]),
           ("g", FSTree.file [7])])]) (["a"] ++ ["g"]) = some (FSTree.file [7]) ∧
    fsLookup
        (FSTree.dir [("a", FSTree.dir [("b", FSTree.dir
          [("b", FSTree.dir [("g", FSTree.file [7])]),
           ("g", FSTree.file [7])])])]) (["a"] ++ ["g"]) = none := by
  refine ⟨?_, ?_, rfl, rfl⟩
  · simp [executeSyncMapping, copyDirSync_succ, copyEntries_cons, copyEntries_nil,
      copyDirSync_zero, existsSync, fsLookup, getEntry, mkdirSync, setEntry,
      readdirSync, isDirNode, pathJoin, copyFileSync, readFileSync, writeFileSync]
  · simp [executeSyncMapping, copyDirSync_succ, copyEntries_cons, copyEntries_nil,
      copyDirSync_zero, existsSync, fsLookup, getEntry, mkdirSync, setEntry,
      readdirSync, isDirNode, pathJoin, copyFileSync, readFileSync, writeFileSync]

/-- C5 (amended): `executeOne` is idempotent whenever the resolved source
and target paths do not overlap (neither is a prefix of the other) and the
source subtree is well formed: if the first run succeeds and the second
run returns, the filesystem after the second run is identical to the
filesystem after the first. -/
theorem c5_idempotent (fuel : Nat) (fs : FSTree) (m : SyncMapping)
    (r1 r2 : SyncResult) (fs1 fs2 : FSTree)
    (hdisj : pathsDisjoint m.source m.target = true)
    (hwf : ∀ t, fsLookup fs m.source = some t → wfTree t = true)
    (h1 : executeSyncMapping fuel fs m = some (r1, fs1))
    (hs1 : r1.success = true)
    (h2 : executeSyncMapping fuel fs1 m = some (r2, fs2)) :
    fs2 = fs1 := by
  have hinc : Incomp m.source m.target := (pathsDisjoint_iff _ _).mp hdisj
  have hne : m.target ≠ [] := by
    intro hh
    apply hinc.2
    rw [hh]
    exact List.nil_prefix
  cases hsrc : fsLookup fs m.source with
  | none =>
    rw [executeSyncMapping, hsrc] at h1
    have h1b : some ({ id := m.id, success := false,
                       error := some ("源路径不存在: " ++ pathToString m.source),
                       detail := none }, fs) = some (r1, fs1) := h1
    injection h1b with hh
    have hx : false = r1.success := congrArg (fun x : SyncResult × FSTree => x.1.success) hh
    rw [← hx] at hs1
    exact Bool.noConfusion hs1
  | some t =>
    cases t with
    | file c =>
      cases htgt : fsLookup fs m.target with
      | none =>
        have hnd : ∀ es, fsLookup fs m.target ≠ some (FSTree.dir es) := by
          intro es hh
          rw [htgt] at hh
          exact Option.noConfusion hh
        exact executeSync_idem_file_nondir fuel fs m r1 r2 fs1 fs2 c hinc hne hsrc hnd
          h1 hs1 h2
      | some tt =>
        cases tt with
        | file cf =>
          have hnd : ∀ es, fsLookup fs m.target ≠ some (FSTree.dir es) := by
            intro es hh
            rw [htgt] at hh
            injection hh with hx
            exact FSTree.noConfusion hx
          exact executeSync_idem_file_nondir fuel fs m r1 r2 fs1 fs2 c hinc hne hsrc hnd
            h1 hs1 h2
        | dir es =>
          rw [executeSyncMapping, hsrc, htgt] at h1
          have h1c : (match writeFileSync fs (pathJoin m.target (pathBasename m.source)) c with
              | some fs3 =>
                some ({ id := m.id, success := true, error := none,
                        detail := some ("文件已同步: " ++ pathToString m.source ++ " → " ++
                          pathToString (pathJoin m.target (pathBasename m.source))) }, fs3)
              | none =>
                some ({ id := m.id, success := false, error := some ioErrorText,
                        detail := none }, fs)) = some (r1, fs1) := h1
          cases hw : writeFileSync fs (pathJoin m.target (pathBasename m.source)) c with
          | none =>
            rw [hw] at h1c
            have h1b : some ({ id := m.id, success := false, error := some ioErrorText,
                               detail := none }, fs) = some (r1, fs1) := h1c
            injection h1b with hh
            have hx : false = r1.success :=
              congrArg (fun x : SyncResult × FSTree => x.1.success) hh
            rw [← hx] at hs1
            exact Bool.noConfusion hs1
          | some fs2' =>
            rw [hw] at h1c
            have h1b : some ({ id := m.id, success := true, error := none,
                               detail := some ("文件已同步: " ++ pathToString m.source ++
                                 " → " ++
                                 pathToString (pathJoin m.target (pathBasename m.source))) },
                fs2') = some (r1, fs1) := h1c
            injection h1b with hh
            have hfs1 : fs2' = fs1 := congrArg Prod.snd hh
            rw [← hfs1] at h2 ⊢
            rw [pathJoin_eq] at hw
            have hnsw : ¬ m.source <+: m.target ++ [pathBasename m.source] := by
              intro hh2
              rcases prefix_of_ext_cases m.source m.target [pathBasename m.source] hh2
                with hc | hc
              · exact hinc.1 hc
              · exact hinc.2 hc
            have hsrc1 : fsLookup fs2' m.source = some (FSTree.file c) := by
              rw [writeFileSync_frame (m.target ++ [pathBasename m.source]) fs fs2' c hw
                m.source hnsw]
              exact hsrc
            obtain ⟨es', htgt1⟩ := writeFileSync_dir_preserved
              (m.target ++ [pathBasename m.source]) fs fs2' c hw m.target es htgt
            have hlook : fsLookup fs2' (m.target ++ [pathBasename m.source]) =
                some (FSTree.file c) :=
              writeFileSync_lookup (m.target ++ [pathBasename m.source]) fs fs2' c hw
            rw [executeSyncMapping, hsrc1, htgt1] at h2
            have h2c : (match writeFileSync fs2'
                  (pathJoin m.target (pathBasename m.source)) c with
                | some fs3 =>
                  some ({ id := m.id, success := true, error := none,
                          detail := some ("文件已同步: " ++ pathToString m.source ++ " → " ++
                            pathToString (pathJoin m.target (pathBasename m.source))) }, fs3)
                | none =>
                  some ({ id := m.id, success := false, error := some ioErrorText,
                          detail := none }, fs2')) = some (r2, fs2) := h2
            have hw2 : writeFileSync fs2' (pathJoin m.target (pathBasename m.source)) c =
                some fs2' := by
              rw [pathJoin_eq]
              exact writeFileSync_same (m.target ++ [pathBasename m.source]) fs2' c hlook
            rw [hw2] at h2c
            have h2b : some ({ id := m.id, success := true, error := none,
                               detail := some ("文件已同步: " ++ pathToString m.source ++
                                 " → " ++
                                 pathToString (pathJoin m.target (pathBasename m.source))) },
                fs2') = some (r2, fs2) := h2c
            injection h2b with hh2
            exact (congrArg Prod.snd hh2).symm
    | dir ses =>
      rw [executeSyncMapping, hsrc] at h1
      cases hcd : copyDirSync fuel fs m.source m.target with
      | ok fsa =>
        rw [hcd] at h1
        have h1b : some ({ id := m.id, success := true, error := none,
                           detail := some ("目录已同步: " ++ pathToString m.source ++ " → " ++
                             pathToString m.target) }, fsa) = some (r1, fs1) := h1
        injection h1b with hh
        have hfs1 : fsa = fs1 := congrArg Prod.snd hh
        rw [← hfs1] at h2 ⊢
        obtain ⟨hframe, hmono, hcopy, huntouched, hdirs⟩ :=
          (copyDirSync_spec fuel).1 fs m.source m.target fsa hinc hwf hcd
        have hframe_ext : ∀ rel, fsLookup fsa (m.source ++ rel) =
            fsLookup fs (m.source ++ rel) := by
          intro rel
          have hi := incomp_append m.source m.target rel [] hinc
          rw [List.append_nil] at hi
          exact hframe (m.source ++ rel) hi.1 hi.2
        have hsrc1 : fsLookup fsa m.source = some (FSTree.dir ses) := by
          rw [hframe m.source hinc.1 hinc.2]
          exact hsrc
        have hwf1 : ∀ t, fsLookup fsa m.source = some t → wfTree t = true := by
          intro t ht
          rw [hsrc1, Option.some.injEq] at ht
          rw [← ht]
          exact hwf (FSTree.dir ses) hsrc
        have hc1' : ∀ rel c', fsLookup fsa (m.source ++ rel) = some (FSTree.file c') →
            fsLookup fsa (m.target ++ rel) = some (FSTree.file c') := by
          intro rel c' hrel
          rw [hframe_ext rel] at hrel
          exact hcopy rel c' hrel
        have hc2' : ∀ rel ds, fsLookup fsa (m.source ++ rel) = some (FSTree.dir ds) →
            (fsLookup fsa (m.target ++ rel)).isSome := by
          intro rel ds hrel
          rw [hframe_ext rel] at hrel
          exact hdirs rel ds hrel
        rw [executeSyncMapping, hsrc1] at h2
        cases hcd2 : copyDirSync fuel fsa m.source m.target with
        | ok f2 =>
          rcases (copyIdSpec fuel).1 fsa m.source m.target ses hsrc1 hwf1 hc1' hc2'
              (CopyOut.ok f2) hcd2 with hh2 | hh2 | hh2
          · injection hh2 with hf2
            rw [hcd2] at h2
            have h2b : some ({ id := m.id, success := true, error := none,
                               detail := some ("目录已同步: " ++ pathToString m.source ++ " → " ++
                                 pathToString m.target) }, f2) = some (r2, fs2) := h2
            injection h2b with hh3
            have hx : f2 = fs2 := congrArg Prod.snd hh3
            rw [← hx]
            exact hf2
          · exact CopyOut.noConfusion hh2
          · exact CopyOut.noConfusion hh2
        | err f2 =>
          rcases (copyIdSpec fuel).1 fsa m.source m.target ses hsrc1 hwf1 hc1' hc2'
              (CopyOut.err f2) hcd2 with hh2 | hh2 | hh2
          · exact CopyOut.noConfusion hh2
          · injection hh2 with hf2
            rw [hcd2] at h2
            have h2b : some ({ id := m.id, success := false, error := some ioErrorText,
                               detail := none }, f2) = some (r2, fs2) := h2
            injection h2b with hh3
            have hx : f2 = fs2 := congrArg Prod.snd hh3
            rw [← hx]
            exact hf2
          · exact CopyOut.noConfusion hh2
        | fuelOut =>
          rw [hcd2] at h2
          have h2b : (none : Option (SyncResult × FSTree)) = some (r2, fs2) := h2
          exact Option.noConfusion h2b
      | err fsa =>
        rw [hcd] at h1
        have h1b : some ({ id := m.id, success := false, error := some ioErrorText,
                           detail := none }, fsa) = some (r1, fs1) := h1
        injection h1b with hh
        have hx : false = r1.success := congrArg (fun x : SyncResult × FSTree => x.1.success) hh
        rw [← hx] at hs1
        exact Bool.noConfusion hs1
      | fuelOut =>
        rw [hcd] at h1
        have h1b : (none : Option (SyncResult × FSTree)) = some (r1, fs1) := h1
        exact Option.noConfusion h1b

/-- C5 (witness): the amended idempotence theorem applied to a concrete
disjoint file mapping — both runs succeed and the second leaves the tree
exactly as the first did. -/
theorem c5_idempotent_witness :
    pathsDisjoint ["s"] ["t"] = true ∧
    executeSyncMapping 1 (FSTree.dir [("s", FSTree.file [3])])
        { id := "m", source := ["s"], target := ["t"], enabled := true } =
      some ({ id := "m", success := true, error := none,
              detail := some ("文件已同步: " ++ pathToString ["s"] ++ " → " ++
                pathToString ["t"]) },
        FSTree.dir [("s", FSTree.file [3]), ("t", FSTree.file [3])]) ∧
    executeSyncMapping 1 (FSTree.dir [("s", FSTree.file [3]), ("t", FSTree.file [3])])
        { id := "m", source := ["s"], target := ["t"], enabled := true } =
      some ({ id := "m", success := true, error := none,
              detail := some ("文件已同步: " ++ pathToString ["s"] ++ " → " ++
                pathToString ["t"]) },
        FSTree.dir [("s", FSTree.file [3]), ("t", FSTree.file [3])]) ∧
    (FSTree.dir [("s", FSTree.file [3]), ("t", FSTree.file [3])] : FSTree) =
      FSTree.dir [("s", FSTree.file [3]), ("t", FSTree.file [3])] := by
  refine ⟨rfl, rfl, rfl, ?_⟩
  exact c5_idempotent 1 (FSTree.dir [("s", FSTree.file [3])])
    { id := "m", source := ["s"], target := ["t"], enabled := true }
    { id := "m", success := true, error := none,
      detail := some ("文件已同步: " ++ pathToString ["s"] ++ " → " ++
        pathToString ["t"]) }
    { id := "m", success := true, error := none,
      detail := some ("文件已同步: " ++ pathToString ["s"] ++ " → " ++
        pathToString ["t"]) }
    (FSTree.dir [("s", FSTree.file [3]), ("t", FSTree.file [3])])
    (FSTree.dir [("s", FSTree.file [3]), ("t", FSTree.file [3])])
    rfl (fun t ht => by injection ht with hh; rw [← hh]; rfl) rfl rfl rfl

/-! ### Depth of a tree, for the termination analysis of `copyDirSync` -/

mutual

/-- Length of the longest path that resolves inside the tree. -/
def depthT : FSTree → Nat
  | FSTree.file _ => 0
  | FSTree.dir es => depthEntries es

/-- Depth of a directory listing: one more than the deepest entry. -/
def depthEntries : List (String × FSTree) → Nat
  | [] => 0
  | e :: rest => max (depthT e.2 + 1) (depthEntries rest)

end

theorem depthT_file (c : List Nat) : depthT (FSTree.file c) = 0 := by
  rw [depthT]

theorem depthT_dir (es : List (String × FSTree)) : depthT (FSTree.dir es) = depthEntries es := by
  rw [depthT]

theorem depthEntries_getEntry (es : List (String × FSTree)) (n : String) (t : FSTree)
    (h : getEntry es n = some t) : depthT t + 1 ≤ depthEntries es := by
  induction es with
  | nil => exact Option.noConfusion h
  | cons e rest ih =>
    rw [getEntry] at h
    rw [depthEntries]
    by_cases he : e.1 = n
    · rw [if_pos he] at h
      injection h with ht
      rw [ht]
      exact le_max_left _ _
    · rw [if_neg he] at h
      exact le_trans (ih h) (le_max_right _ _)

theorem depthT_lookup : ∀ (p : List String) (fs t : FSTree),
    fsLookup fs p = some t → p.length + depthT t ≤ depthT fs := by
  intro p
  induction p with
  | nil =>
    intro fs t h
    rw [fsLookup_nil, Option.some.injEq] at h
    rw [h, List.length_nil, Nat.zero_add]
  | cons n rest ih =>
    intro fs t h
    cases fs with
    | file c =>
      rw [fsLookup_file_cons] at h
      exact Option.noConfusion h
    | dir es =>
      rw [fsLookup_dir_cons] at h
      cases hg : getEntry es n with
      | none =>
        rw [hg] at h
        exact Option.noConfusion h
      | some u =>
        rw [hg] at h
        have h1 := ih u t h
        have h2 := depthEntries_getEntry es n u hg
        rw [depthT_dir]
        rw [List.length_cons]
        omega

theorem depthT_lookup_le (p : List String) (fs t : FSTree)
    (h : fsLookup fs p = some t) : p.length ≤ depthT fs := by
  have hh := depthT_lookup p fs t h
  omega

theorem depthEntries_setEntry (es : List (String × FSTree)) (n : String) (t : FSTree) :
    depthEntries (setEntry es n t) ≤ max (depthEntries es) (depthT t + 1) := by
  induction es with
  | nil =>
    simp only [setEntry, depthEntries]
    omega
  | cons e rest ih =>
    by_cases he : e.1 = n
    · simp only [setEntry, if_pos he, depthEntries]
      omega
    · simp only [setEntry, if_neg he, depthEntries]
      omega

theorem writeFileSync_depth (p : List String) : ∀ (fs fs' : FSTree) (c : List Nat),
    writeFileSync fs p c = some fs' → depthT fs' ≤ max (depthT fs) p.length := by
  induction p with
  | nil =>
    intro fs fs' c h
    cases fs with
    | file c0 =>
      injection h with hh
      rw [← hh, depthT_file]
      exact Nat.zero_le _
    | dir es => simp [writeFileSync] at h
  | cons n rest ih =>
    intro fs fs' c h
    cases fs with
    | file c0 => simp [writeFileSync] at h
    | dir es =>
      obtain ⟨t2, hfs', hcase⟩ := writeFileSync_cons_shape es n rest c fs' h
      subst hfs'
      have hset := depthEntries_setEntry es n t2
      rw [depthT_dir, depthT_dir, List.length_cons]
      rcases hcase with ⟨hr, ht2, _⟩ | ⟨hr, t', hg, hw⟩
      · subst ht2
        have h0 : depthT (FSTree.file c) = 0 := depthT_file c
        omega
      · have hrec := ih t' t2 c hw
        have hge := depthEntries_getEntry es n t' hg
        omega

theorem mkdirSync_depth (p : List String) : ∀ (fs fs' : FSTree),
    mkdirSync fs p = some fs' → depthT fs' ≤ max (depthT fs) p.length := by
  induction p with
  | nil =>
    intro fs fs' h
    cases fs with
    | file c0 => simp [mkdirSync] at h
    | dir es =>
      injection h with hh
      rw [← hh]
      exact le_max_left _ _
  | cons n rest ih =>
    intro fs fs' h
    cases fs with
    | file c0 => simp [mkdirSync] at h
    | dir es =>
      obtain ⟨t2, hfs', hcase⟩ := mkdirSync_cons_shape es n rest fs' h
      subst hfs'
      have hset := depthEntries_setEntry es n t2
      rw [depthT_dir, depthT_dir, List.length_cons]
      rcases hcase with ⟨t', hg, hm⟩ | ⟨hg, hm⟩
      · have hrec := ih t' t2 hm
        have hge := depthEntries_getEntry es n t' hg
        omega
      · have hrec := ih (FSTree.dir []) t2 hm
        have h0 : depthT (FSTree.dir []) = 0 := by rw [depthT_dir, depthEntries]
        omega

/-- `mkdirSync` never turns an existing directory into anything else. -/
theorem mkdirSync_dir_preserved (w : List String) : ∀ (fs fs' : FSTree),
    mkdirSync fs w = some fs' → ∀ (p : List String) (es : List (String × FSTree)),
    fsLookup fs p = some (FSTree.dir es) → ∃ es', fsLookup fs' p = some (FSTree.dir es') := by
  induction w with
  | nil =>
    intro fs fs' h p es hp
    cases fs with
    | file c0 => simp [mkdirSync] at h
    | dir es0 =>
      injection h with hh
      rw [← hh]
      exact ⟨es, hp⟩
  | cons n wr ih =>
    intro fs fs' h p es hp
    cases fs with
    | file c0 => simp [mkdirSync] at h
    | dir es0 =>
      obtain ⟨t2, hfs', hcase⟩ := mkdirSync_cons_shape es0 n wr fs' h
      subst hfs'
      cases p with
      | nil => exact ⟨setEntry es0 n t2, rfl⟩
      | cons m pr =>
        rw [fsLookup_dir_cons] at hp
        by_cases hm : m = n
        · subst hm
          rw [fsLookup_dir_cons, getEntry_setEntry_self]
          cases hge : getEntry es0 m with
          | none =>
            rw [hge] at hp
            exact Option.noConfusion hp
          | some t =>
            rw [hge] at hp
            rcases hcase with ⟨t', hg', hm'⟩ | ⟨hgnone, hm'⟩
            · have hgt : t' = t := by
                rw [hg'] at hge
                exact (Option.some.injEq _ _ ▸ hge)
              subst hgt
              exact ih t' t2 hm' pr es hp
            · rw [hge] at hgnone
              exact Option.noConfusion hgnone
        · rw [fsLookup_dir_cons, getEntry_setEntry_ne es0 n m t2 hm]
          exact ⟨es, hp⟩

theorem getEntry_mem_name (es : List (String × FSTree)) (n : String)
    (h : ∃ e, e ∈ es ∧ e.1 = n) : ∃ t, getEntry es n = some t := by
  induction es with
  | nil =>
    obtain ⟨e, he, _⟩ := h
    exact absurd he (List.not_mem_nil _)
  | cons e0 rest ih =>
    by_cases h0 : e0.1 = n
    · refine ⟨e0.2, ?_⟩
      rw [getEntry, if_pos h0]
    · obtain ⟨e, he, hn⟩ := h
      rcases List.mem_cons.mp he with he0 | her
      · exact absurd (he0 ▸ hn) h0
      · rw [getEntry, if_neg h0]
        exact ih ⟨e, her, hn⟩

/-! ### Termination of `copyDirSync`, incomparable source and destination -/

/-- Termination package for a source not overlapping the destination: with
fuel above the depth of the source subtree the call never runs out, and a
finished call (successful or not) changes nothing outside the destination
subtree. -/
def CopyTermIncOk (fuel : Nat) : Prop :=
  ∀ fs s d t, Incomp s d →
    fsLookup fs s = some t →
    depthT t < fuel →
    copyDirSync fuel fs s d ≠ CopyOut.fuelOut ∧
    (∀ fs', copyDirSync fuel fs s d = CopyOut.ok fs' ∨
            copyDirSync fuel fs s d = CopyOut.err fs' →
      ∀ q, ¬ q <+: d → ¬ d <+: q → fsLookup fs' q = fsLookup fs q)

/-- The entry-loop version of `CopyTermIncOk`. -/
def CopyTermIncEntriesOk (fuel : Nat) : Prop :=
  ∀ es fs s d ses, Incomp s d →
    fsLookup fs s = some (FSTree.dir ses) →
    (∀ n b, ((n, b) : String × Bool) ∈ es → ∃ t, getEntry ses n = some t) →
    depthT (FSTree.dir ses) ≤ fuel →
    copyEntries fuel fs s d es ≠ CopyOut.fuelOut ∧
    (∀ fs', copyEntries fuel fs s d es = CopyOut.ok fs' ∨
            copyEntries fuel fs s d es = CopyOut.err fs' →
      ∀ q, ¬ q <+: d → ¬ d <+: q → fsLookup fs' q = fsLookup fs q)

theorem copyTermIncEntries_of (fuel : Nat) (hA : CopyTermIncOk fuel) :
    CopyTermIncEntriesOk fuel := by
  intro es
  induction es with
  | nil =>
    intro fs s d ses hic hs hes hdep
    refine ⟨?_, ?_⟩
    · rw [copyEntries_nil]
      exact fun hh => CopyOut.noConfusion hh
    · intro fs' hok q hq1 hq2
      rw [copyEntries_nil] at hok
      rcases hok with hok | hok
      · injection hok with hh
        rw [← hh]
      · exact CopyOut.noConfusion hok
  | cons e rest ih =>
    obtain ⟨n, b⟩ := e
    intro fs s d ses hic hs hes hdep
    obtain ⟨t, hg⟩ := hes n b (List.mem_cons_self _ _)
    have hesrest : ∀ n' b', ((n', b') : String × Bool) ∈ rest →
        ∃ t', getEntry ses n' = some t' :=
      fun n' b' hmm => hes n' b' (List.mem_cons_of_mem _ hmm)
    have hsn : fsLookup fs (s ++ [n]) = some t := by
      rw [fsLookup_append_some fs s [n] (FSTree.dir ses) hs,
        fsLookup_dir_cons_some ses n [] t hg]
      exact fsLookup_nil t
    have hdept : depthT t + 1 ≤ depthEntries ses := depthEntries_getEntry ses n t hg
    have hdt : depthT t < fuel := by
      rw [depthT_dir] at hdep
      omega
    cases b with
    | false =>
      cases hrf : readFileSync fs (s ++ [n]) with
      | none =>
        have hcf : copyFileSync fs (s ++ [n]) (d ++ [n]) = none := by
          rw [copyFileSync, hrf]
        have hE : copyEntries fuel fs s d ((n, false) :: rest) = CopyOut.err fs := by
          rw [copyEntries_cons, if_neg Bool.false_ne_true, pathJoin_eq, pathJoin_eq, hcf]
        refine ⟨?_, ?_⟩
        · rw [hE]
          exact fun hh => CopyOut.noConfusion hh
        · intro fs' hok q hq1 hq2
          rw [hE] at hok
          rcases hok with hok | hok
          · exact CopyOut.noConfusion hok
          · injection hok with hh
            rw [← hh]
      | some c0 =>
        have hcf : copyFileSync fs (s ++ [n]) (d ++ [n]) =
            writeFileSync fs (d ++ [n]) c0 := by
          rw [copyFileSync, hrf]
        cases hw : writeFileSync fs (d ++ [n]) c0 with
        | none =>
          have hE : copyEntries fuel fs s d ((n, false) :: rest) = CopyOut.err fs := by
            rw [copyEntries_cons, if_neg Bool.false_ne_true, pathJoin_eq, pathJoin_eq,
              hcf, hw]
          refine ⟨?_, ?_⟩
          · rw [hE]
            exact fun hh => CopyOut.noConfusion hh
          · intro fs' hok q hq1 hq2
            rw [hE] at hok
            rcases hok with hok | hok
            · exact CopyOut.noConfusion hok
            · injection hok with hh
              rw [← hh]
        | some fs2 =>
          have hE : copyEntries fuel fs s d ((n, false) :: rest) =
              copyEntries fuel fs2 s d rest := by
            rw [copyEntries_cons, if_neg Bool.false_ne_true, pathJoin_eq, pathJoin_eq,
              hcf, hw]
          have hfr2 : ∀ q, ¬ q <+: d → ¬ d <+: q →
              fsLookup fs2 q = fsLookup fs q := by
            intro q hq1 hq2
            obtain ⟨hq1', _⟩ := incomp_ext_trans q d hq1 hq2 [n]
            exact writeFileSync_frame (d ++ [n]) fs fs2 c0 hw q hq1'
          have hs2 : fsLookup fs2 s = some (FSTree.dir ses) := by
            rw [hfr2 s hic.1 hic.2]
            exact hs
          obtain ⟨hnf, hfrrest⟩ := ih fs2 s d ses hic hs2 hesrest hdep
          refine ⟨?_, ?_⟩
          · rw [hE]
            exact hnf
          · intro fs' hok q hq1 hq2
            rw [hE] at hok
            rw [hfrrest fs' hok q hq1 hq2, hfr2 q hq1 hq2]
    | true =>
      obtain ⟨hnfo, hfrc⟩ := hA fs (s ++ [n]) (d ++ [n]) t
        (incomp_append s d [n] [n] hic) hsn hdt
      cases hcd : copyDirSync fuel fs (s ++ [n]) (d ++ [n]) with
      | fuelOut => exact absurd hcd hnfo
      | ok fs2 =>
        have hE : copyEntries fuel fs s d ((n, true) :: rest) =
            copyEntries fuel fs2 s d rest := by
          rw [copyEntries_cons, if_pos rfl, pathJoin_eq, pathJoin_eq, hcd]
        have hfr2 : ∀ q, ¬ q <+: d → ¬ d <+: q →
            fsLookup fs2 q = fsLookup fs q := by
          intro q hq1 hq2
          obtain ⟨hq1', hq2'⟩ := incomp_ext_trans q d hq1 hq2 [n]
          exact hfrc fs2 (Or.inl hcd) q hq1' hq2'
        have hs2 : fsLookup fs2 s = some (FSTree.dir ses) := by
          rw [hfr2 s hic.1 hic.2]
          exact hs
        obtain ⟨hnf, hfrrest⟩ := ih fs2 s d ses hic hs2 hesrest hdep
        refine ⟨?_, ?_⟩
        · rw [hE]
          exact hnf
        · intro fs' hok q hq1 hq2
          rw [hE] at hok
          rw [hfrrest fs' hok q hq1 hq2, hfr2 q hq1 hq2]
      | err fs2 =>
        have hE : copyEntries fuel fs s d ((n, true) :: rest) = CopyOut.err fs2 := by
          rw [copyEntries_cons, if_pos rfl, pathJoin_eq, pathJoin_eq, hcd]
        refine ⟨?_, ?_⟩
        · rw [hE]
          exact fun hh => CopyOut.noConfusion hh
        · intro fs' hok q hq1 hq2
          rw [hE] at hok
          rcases hok with hok | hok
          · exact CopyOut.noConfusion hok
          · injection hok with hh
            rw [← hh]
            obtain ⟨hq1', hq2'⟩ := incomp_ext_trans q d hq1 hq2 [n]
            exact hfrc fs2 (Or.inr hcd) q hq1' hq2'

theorem copyTermInc_step (fuel : Nat) (hB : CopyTermIncEntriesOk fuel)
    (fs fs1 : FSTree) (s d : List String) (t : FSTree)
    (hic : Incomp s d) (hs : fsLookup fs s = some t) (hdt : depthT t < fuel + 1)
    (hstep : (if existsSync fs d then some fs else mkdirSync fs d) = some fs1)
    (hfr1 : ∀ q, ¬ q <+: d → fsLookup fs1 q = fsLookup fs q) :
    copyDirSync (fuel + 1) fs s d ≠ CopyOut.fuelOut ∧
    (∀ fs', copyDirSync (fuel + 1) fs s d = CopyOut.ok fs' ∨
            copyDirSync (fuel + 1) fs s d = CopyOut.err fs' →
      ∀ q, ¬ q <+: d → ¬ d <+: q → fsLookup fs' q = fsLookup fs q) := by
  have hs1 : fsLookup fs1 s = some t := by
    rw [hfr1 s hic.1]
    exact hs
  cases t with
  | file c0 =>
    have hrd : readdirSync fs1 s = none := by
      rw [readdirSync, hs1]
    have hE : copyDirSync (fuel + 1) fs s d = CopyOut.err fs1 := by
      rw [copyDirSync_succ, hstep]
      show (match readdirSync fs1 s with
        | none => CopyOut.err fs1
        | some entries => copyEntries fuel fs1 s d entries) = CopyOut.err fs1
      rw [hrd]
    refine ⟨?_, ?_⟩
    · rw [hE]
      exact fun hh => CopyOut.noConfusion hh
    · intro fs' hok q hq1 hq2
      rw [hE] at hok
      rcases hok with hok | hok
      · exact CopyOut.noConfusion hok
      · injection hok with hh
        rw [← hh]
        exact hfr1 q hq1
  | dir ses =>
    have hrd : readdirSync fs1 s = some (ses.map (fun e => (e.1, isDirNode e.2))) := by
      rw [readdirSync, hs1]
    have hE : copyDirSync (fuel + 1) fs s d =
        copyEntries fuel fs1 s d (ses.map (fun e => (e.1, isDirNode e.2))) := by
      rw [copyDirSync_succ, hstep]
      show (match readdirSync fs1 s with
        | none => CopyOut.err fs1
        | some entries => copyEntries fuel fs1 s d entries) =
        copyEntries fuel fs1 s d (ses.map (fun e => (e.1, isDirNode e.2)))
      rw [hrd]
    have hes : ∀ n b, ((n, b) : String × Bool) ∈ ses.map (fun e => (e.1, isDirNode e.2)) →
        ∃ t', getEntry ses n = some t' := by
      intro n b hmem
      rw [List.mem_map] at hmem
      obtain ⟨e, he, heq⟩ := hmem
      exact getEntry_mem_name ses n ⟨e, he, congrArg Prod.fst heq⟩
    have hdep : depthT (FSTree.dir ses) ≤ fuel := by omega
    obtain ⟨hnf, hfrrest⟩ :=
      hB (ses.map (fun e => (e.1, isDirNode e.2))) fs1 s d ses hic hs1 hes hdep
    refine ⟨?_, ?_⟩
    · rw [hE]
      exact hnf
    · intro fs' hok q hq1 hq2
      rw [hE] at hok
      rw [hfrrest fs' hok q hq1 hq2, hfr1 q hq1]

theorem copyTermIncOk_succ (fuel : Nat) (hB : CopyTermIncEntriesOk fuel) :
    CopyTermIncOk (fuel + 1) := by
  intro fs s d t hic hs hdt
  cases hex : existsSync fs d with
  | false =>
    have hcond : ¬ (existsSync fs d = true) := by
      rw [hex]
      exact Bool.false_ne_true
    cases hmk : mkdirSync fs d with
    | none =>
      have hE : copyDirSync (fuel + 1) fs s d = CopyOut.err fs := by
        rw [copyDirSync_succ, if_neg hcond, hmk]
      refine ⟨?_, ?_⟩
      · rw [hE]
        exact fun hh => CopyOut.noConfusion hh
      · intro fs' hok q hq1 hq2
        rw [hE] at hok
        rcases hok with hok | hok
        · exact CopyOut.noConfusion hok
        · injection hok with hh
          rw [← hh]
    | some fs1 =>
      have hstep : (if existsSync fs d then some fs else mkdirSync fs d) = some fs1 := by
        rw [if_neg hcond, hmk]
      exact copyTermInc_step fuel hB fs fs1 s d t hic hs hdt hstep
        (fun q hq1 => mkdirSync_frame d fs fs1 hmk q hq1)
  | true =>
    have hstep : (if existsSync fs d then some fs else mkdirSync fs d) = some fs :=
      if_pos hex
    exact copyTermInc_step fuel hB fs fs s d t hic hs hdt hstep (fun q _ => rfl)

theorem copyTermIncSpec : ∀ fuel, CopyTermIncOk fuel ∧ CopyTermIncEntriesOk fuel := by
  intro fuel
  induction fuel with
  | zero =>
    have hA : CopyTermIncOk 0 := by
      intro fs s d t hic hs hdt
      exact absurd hdt (Nat.not_lt_zero _)
    exact ⟨hA, copyTermIncEntries_of 0 hA⟩
  | succ fuel ih =>
    have hA := copyTermIncOk_succ fuel ih.2
    exact ⟨hA, copyTermIncEntries_of (fuel + 1) hA⟩

theorem setEntry_any_false (es : List (String × FSTree)) (n m : String) (t : FSTree)
    (hm : m ≠ n) (h : es.any (fun e2 => e2.1 == m) = false) :
    (setEntry es n t).any (fun e2 => e2.1 == m) = false := by
  induction es with
  | nil =>
    rw [setEntry]
    simp only [List.any_cons, List.any_nil, Bool.or_false]
    show (n == m) = false
    exact beq_eq_false_iff_ne.mpr (fun hh => hm hh.symm)
  | cons e rest ih =>
    rw [List.any_cons, Bool.or_eq_false_iff] at h
    rw [setEntry]
    by_cases he : e.1 = n
    · rw [if_pos he, List.any_cons, Bool.or_eq_false_iff]
      refine ⟨?_, h.2⟩
      show (n == m) = false
      exact beq_eq_false_iff_ne.mpr (fun hh => hm hh.symm)
    · rw [if_neg he, List.any_cons, Bool.or_eq_false_iff]
      exact ⟨h.1, ih h.2⟩

theorem wfEntries_setEntry (es : List (String × FSTree)) (n : String) (t : FSTree)
    (hwf : wfEntries es = true) (hwt : wfTree t = true) :
    wfEntries (setEntry es n t) = true := by
  induction es with
  | nil =>
    rw [setEntry]
    simp [wfEntries, hwt]
  | cons e rest ih =>
    rw [wfEntries, Bool.and_eq_true, Bool.and_eq_true] at hwf
    obtain ⟨⟨h1, h2⟩, h3⟩ := hwf
    rw [Bool.not_eq_true'] at h1
    rw [setEntry]
    by_cases he : e.1 = n
    · rw [if_pos he]
      rw [wfEntries, Bool.and_eq_true, Bool.and_eq_true]
      refine ⟨⟨?_, ?_⟩, h3⟩
      · rw [Bool.not_eq_true']
        show rest.any (fun e2 => e2.1 == n) = false
        rw [← he]
        exact h1
      · show wfTree t = true
        exact hwt
    · rw [if_neg he]
      rw [wfEntries, Bool.and_eq_true, Bool.and_eq_true]
      refine ⟨⟨?_, h2⟩, ih h3⟩
      rw [Bool.not_eq_true']
      exact setEntry_any_false rest n e.1 t he h1

theorem writeFileSync_wf (p : List String) : ∀ (fs fs' : FSTree) (c : List Nat),
    writeFileSync fs p c = some fs' → wfTree fs = true → wfTree fs' = true := by
  induction p with
  | nil =>
    intro fs fs' c h hwf
    cases fs with
    | file c0 =>
      injection h with hh
      rw [← hh, wfTree]
    | dir es => simp [writeFileSync] at h
  | cons n rest ih =>
    intro fs fs' c h hwf
    cases fs with
    | file c0 => simp [writeFileSync] at h
    | dir es =>
      obtain ⟨t2, hfs', hcase⟩ := writeFileSync_cons_shape es n rest c fs' h
      subst hfs'
      rw [wfTree_dir] at hwf ⊢
      rcases hcase with ⟨hr, ht2, _⟩ | ⟨hr, t', hg, hw⟩
      · subst ht2
        exact wfEntries_setEntry es n (FSTree.file c) hwf (by rw [wfTree])
      · have hwt' : wfTree t' = true := wfEntries_getEntry es n t' hwf hg
        exact wfEntries_setEntry es n t2 hwf (ih t' t2 c hw hwt')

theorem mkdirSync_wf (p : List String) : ∀ (fs fs' : FSTree),
    mkdirSync fs p = some fs' → wfTree fs = true → wfTree fs' = true := by
  induction p with
  | nil =>
    intro fs fs' h hwf
    cases fs with
    | file c0 => simp [mkdirSync] at h
    | dir es =>
      injection h with hh
      rw [← hh]
      exact hwf
  | cons n rest ih =>
    intro fs fs' h hwf
    cases fs with
    | file c0 => simp [mkdirSync] at h
    | dir es =>
      obtain ⟨t2, hfs', hcase⟩ := mkdirSync_cons_shape es n rest fs' h
      subst hfs'
      rw [wfTree_dir] at hwf ⊢
      rcases hcase with ⟨t', hg, hm⟩ | ⟨hg, hm⟩
      · have hwt' : wfTree t' = true := wfEntries_getEntry es n t' hwf hg
        exact wfEntries_setEntry es n t2 hwf (ih t' t2 hm hwt')
      · have hwt0 : wfTree (FSTree.dir []) = true := by
          rw [wfTree_dir, wfEntries]
        exact wfEntries_setEntry es n t2 hwf (ih (FSTree.dir []) t2 hm hwt0)

theorem wfTree_fsLookup : ∀ (p : List String) (fs t : FSTree),
    wfTree fs = true → fsLookup fs p = some t → wfTree t = true := by
  intro p
  induction p with
  | nil =>
    intro fs t hwf h
    rw [fsLookup_nil, Option.some.injEq] at h
    rw [← h]
    exact hwf
  | cons n rest ih =>
    intro fs t hwf h
    cases fs with
    | file c =>
      rw [fsLookup_file_cons] at h
      exact Option.noConfusion h
    | dir es =>
      rw [fsLookup_dir_cons] at h
      cases hg : getEntry es n with
      | none =>
        rw [hg] at h
        exact Option.noConfusion h
      | some u =>
        rw [hg] at h
        rw [wfTree_dir] at hwf
        exact ih u t (wfEntries_getEntry es n u hwf hg) h

/-! ### Termination of `copyDirSync`, destination strictly shorter than the
source (covers a destination that is a proper ancestor of the source) -/

/-- Termination package for a destination path strictly shorter than the
source: every write of the run lands at depth at most the source's depth,
so the tree depth never grows, directories are never destroyed, and a run
with fuel above the tree depth cannot run out. -/
def CopyTermLenOk (fuel : Nat) : Prop :=
  ∀ fs s d ses, d.length < s.length →
    wfTree fs = true →
    fsLookup fs s = some (FSTree.dir ses) →
    depthT fs < fuel + s.length →
    copyDirSync fuel fs s d ≠ CopyOut.fuelOut ∧
    (∀ fs', copyDirSync fuel fs s d = CopyOut.ok fs' ∨
            copyDirSync fuel fs s d = CopyOut.err fs' →
      depthT fs' ≤ depthT fs ∧ wfTree fs' = true ∧
      (∀ p es0, fsLookup fs p = some (FSTree.dir es0) →
         ∃ es1, fsLookup fs' p = some (FSTree.dir es1)))

/-- The entry-loop version of `CopyTermLenOk`. -/
def CopyTermLenEntriesOk (fuel : Nat) : Prop :=
  ∀ es fs s d, d.length < s.length →
    wfTree fs = true →
    (∃ ses, fsLookup fs s = some (FSTree.dir ses)) →
    (∀ n b, ((n, b) : String × Bool) ∈ es → b = true →
       ∃ ts, fsLookup fs (s ++ [n]) = some (FSTree.dir ts)) →
    depthT fs < fuel + s.length + 1 →
    copyEntries fuel fs s d es ≠ CopyOut.fuelOut ∧
    (∀ fs', copyEntries fuel fs s d es = CopyOut.ok fs' ∨
            copyEntries fuel fs s d es = CopyOut.err fs' →
      depthT fs' ≤ depthT fs ∧ wfTree fs' = true ∧
      (∀ p es0, fsLookup fs p = some (FSTree.dir es0) →
         ∃ es1, fsLookup fs' p = some (FSTree.dir es1)))

theorem copyTermLenEntries_of (fuel : Nat) (hA : CopyTermLenOk fuel) :
    CopyTermLenEntriesOk fuel := by
  intro es
  induction es with
  | nil =>
    intro fs s d hlen hwf hex hdirs hdep
    refine ⟨?_, ?_⟩
    · rw [copyEntries_nil]
      exact fun hh => CopyOut.noConfusion hh
    · intro fs' hok
      rw [copyEntries_nil] at hok
      rcases hok with hok | hok
      · injection hok with hh
        rw [← hh]
        exact ⟨le_refl _, hwf, fun p es0 hp => ⟨es0, hp⟩⟩
      · exact CopyOut.noConfusion hok
  | cons e rest ih =>
    obtain ⟨n, b⟩ := e
    intro fs s d hlen hwf hex hdirs hdep
    obtain ⟨ses, hs⟩ := hex
    have hslen : s.length ≤ depthT fs := depthT_lookup_le s fs (FSTree.dir ses) hs
    have hdirsrest : ∀ n' b', ((n', b') : String × Bool) ∈ rest → b' = true →
        ∃ ts, fsLookup fs (s ++ [n']) = some (FSTree.dir ts) :=
      fun n' b' hmm hb => hdirs n' b' (List.mem_cons_of_mem _ hmm) hb
    cases b with
    | false =>
      cases hrf : readFileSync fs (s ++ [n]) with
      | none =>
        have hcf : copyFileSync fs (s ++ [n]) (d ++ [n]) = none := by
          rw [copyFileSync, hrf]
        have hE : copyEntries fuel fs s d ((n, false) :: rest) = CopyOut.err fs := by
          rw [copyEntries_cons, if_neg Bool.false_ne_true, pathJoin_eq, pathJoin_eq, hcf]
        refine ⟨?_, ?_⟩
        · rw [hE]
          exact fun hh => CopyOut.noConfusion hh
        · intro fs' hok
          rw [hE] at hok
          rcases hok with hok | hok
          · exact CopyOut.noConfusion hok
          · injection hok with hh
            rw [← hh]
            exact ⟨le_refl _, hwf, fun p es0 hp => ⟨es0, hp⟩⟩
      | some c0 =>
        have hcf : copyFileSync fs (s ++ [n]) (d ++ [n]) =
            writeFileSync fs (d ++ [n]) c0 := by
          rw [copyFileSync, hrf]
        cases hw : writeFileSync fs (d ++ [n]) c0 with
        | none =>
          have hE : copyEntries fuel fs s d ((n, false) :: rest) = CopyOut.err fs := by
            rw [copyEntries_cons, if_neg Bool.false_ne_true, pathJoin_eq, pathJoin_eq,
              hcf, hw]
          refine ⟨?_, ?_⟩
          · rw [hE]
            exact fun hh => CopyOut.noConfusion hh
          · intro fs' hok
            rw [hE] at hok
            rcases hok with hok | hok
            · exact CopyOut.noConfusion hok
            · injection hok with hh
              rw [← hh]
              exact ⟨le_refl _, hwf, fun p es0 hp => ⟨es0, hp⟩⟩
        | some fs2 =>
          have hE : copyEntries fuel fs s d ((n, false) :: rest) =
              copyEntries fuel fs2 s d rest := by
            rw [copyEntries_cons, if_neg Bool.false_ne_true, pathJoin_eq, pathJoin_eq,
              hcf, hw]
          have hdw := writeFileSync_depth (d ++ [n]) fs fs2 c0 hw
          have hl : (d ++ [n]).length = d.length + 1 := by simp
          have hd2 : depthT fs2 ≤ depthT fs := by omega
          have hwf2 : wfTree fs2 = true := writeFileSync_wf (d ++ [n]) fs fs2 c0 hw hwf
          have hdp2 := writeFileSync_dir_preserved (d ++ [n]) fs fs2 c0 hw
          have hex2 : ∃ ses2, fsLookup fs2 s = some (FSTree.dir ses2) := hdp2 s ses hs
          have hdirs2 : ∀ n' b', ((n', b') : String × Bool) ∈ rest → b' = true →
              ∃ ts2, fsLookup fs2 (s ++ [n']) = some (FSTree.dir ts2) := by
            intro n' b' hmm hb
            obtain ⟨ts, hts⟩ := hdirsrest n' b' hmm hb
            exact hdp2 (s ++ [n']) ts hts
          have hdep2 : depthT fs2 < fuel + s.length + 1 := by omega
          obtain ⟨hnf, hpay⟩ := ih fs2 s d hlen hwf2 hex2 hdirs2 hdep2
          refine ⟨?_, ?_⟩
          · rw [hE]
            exact hnf
          · intro fs' hok
            rw [hE] at hok
            obtain ⟨hda, hwfa, hdpa⟩ := hpay fs' hok
            refine ⟨by omega, hwfa, ?_⟩
            intro p es0 hp
            obtain ⟨es1, hp1⟩ := hdp2 p es0 hp
            exact hdpa p es1 hp1
    | true =>
      obtain ⟨ts, hts⟩ := hdirs n true (List.mem_cons_self _ _) rfl
      have hlen' : (d ++ [n]).length < (s ++ [n]).length := by
        simp only [List.length_append, List.length_cons, List.length_nil]
        omega
      have hdep' : depthT fs < fuel + (s ++ [n]).length := by
        simp only [List.length_append, List.length_cons, List.length_nil]
        omega
      obtain ⟨hnfo, hpayc⟩ := hA fs (s ++ [n]) (d ++ [n]) ts hlen' hwf hts hdep'
      cases hcd : copyDirSync fuel fs (s ++ [n]) (d ++ [n]) with
      | fuelOut => exact absurd hcd hnfo
      | ok fs2 =>
        have hE : copyEntries fuel fs s d ((n, true) :: rest) =
            copyEntries fuel fs2 s d rest := by
          rw [copyEntries_cons, if_pos rfl, pathJoin_eq, pathJoin_eq, hcd]
        obtain ⟨hd2, hwf2, hdp2⟩ := hpayc fs2 (Or.inl hcd)
        have hex2 : ∃ ses2, fsLookup fs2 s = some (FSTree.dir ses2) := hdp2 s ses hs
        have hdirs2 : ∀ n' b', ((n', b') : String × Bool) ∈ rest → b' = true →
            ∃ ts2, fsLookup fs2 (s ++ [n']) = some (FSTree.dir ts2) := by
          intro n' b' hmm hb
          obtain ⟨ts', hts'⟩ := hdirsrest n' b' hmm hb
          exact hdp2 (s ++ [n']) ts' hts'
        have hdep2 : depthT fs2 < fuel + s.length + 1 := by omega
        obtain ⟨hnf, hpay⟩ := ih fs2 s d hlen hwf2 hex2 hdirs2 hdep2
        refine ⟨?_, ?_⟩
        · rw [hE]
          exact hnf
        · intro fs' hok
          rw [hE] at hok
          obtain ⟨hda, hwfa, hdpa⟩ := hpay fs' hok
          refine ⟨by omega, hwfa, ?_⟩
          intro p es0 hp
          obtain ⟨es1, hp1⟩ := hdp2 p es0 hp
          exact hdpa p es1 hp1
      | err fs2 =>
        have hE : copyEntries fuel fs s d ((n, true) :: rest) = CopyOut.err fs2 := by
          rw [copyEntries_cons, if_pos rfl, pathJoin_eq, pathJoin_eq, hcd]
        refine ⟨?_, ?_⟩
        · rw [hE]
          exact fun hh => CopyOut.noConfusion hh
        · intro fs' hok
          rw [hE] at hok
          rcases hok with hok | hok
          · exact CopyOut.noConfusion hok
          · injection hok with hh
            rw [← hh]
            exact hpayc fs2 (Or.inr hcd)

theorem copyTermLen_step (fuel : Nat) (hB : CopyTermLenEntriesOk fuel)
    (fs fs1 : FSTree) (s d : List String) (ses : List (String × FSTree))
    (hlen : d.length < s.length)
    (hdep : depthT fs < (fuel + 1) + s.length)
    (hstep : (if existsSync fs d then some fs else mkdirSync fs d) = some fs1)
    (hd1 : depthT fs1 ≤ depthT fs)
    (hwf1 : wfTree fs1 = true)
    (hs1 : fsLookup fs1 s = some (FSTree.dir ses))
    (hdp1 : ∀ p es0, fsLookup fs p = some (FSTree.dir es0) →
       ∃ es1, fsLookup fs1 p = some (FSTree.dir es1)) :
    copyDirSync (fuel + 1) fs s d ≠ CopyOut.fuelOut ∧
    (∀ fs', copyDirSync (fuel + 1) fs s d = CopyOut.ok fs' ∨
            copyDirSync (fuel + 1) fs s d = CopyOut.err fs' →
      depthT fs' ≤ depthT fs ∧ wfTree fs' = true ∧
      (∀ p es0, fsLookup fs p = some (FSTree.dir es0) →
         ∃ es1, fsLookup fs' p = some (FSTree.dir es1))) := by
  have hrd : readdirSync fs1 s = some (ses.map (fun e => (e.1, isDirNode e.2))) := by
    rw [readdirSync, hs1]
  have hE : copyDirSync (fuel + 1) fs s d =
      copyEntries fuel fs1 s d (ses.map (fun e => (e.1, isDirNode e.2))) := by
    rw [copyDirSync_succ, hstep]
    show (match readdirSync fs1 s with
      | none => CopyOut.err fs1
      | some entries => copyEntries fuel fs1 s d entries) =
      copyEntries fuel fs1 s d (ses.map (fun e => (e.1, isDirNode e.2)))
    rw [hrd]
  have hwfe : wfEntries ses = true := by
    have hh := wfTree_fsLookup s fs1 (FSTree.dir ses) hwf1 hs1
    rwa [wfTree_dir] at hh
  have hdirs : ∀ n b, ((n, b) : String × Bool) ∈ ses.map (fun e => (e.1, isDirNode e.2)) →
      b = true → ∃ ts, fsLookup fs1 (s ++ [n]) = some (FSTree.dir ts) := by
    intro n b hmem hb
    rw [List.mem_map] at hmem
    obtain ⟨e, he, heq⟩ := hmem
    obtain ⟨a, u⟩ := e
    have ha : a = n := congrArg Prod.fst heq
    have hbu : isDirNode u = b := congrArg Prod.snd heq
    subst ha
    cases u with
    | file c =>
      rw [hb] at hbu
      simp [isDirNode] at hbu
    | dir tes =>
      refine ⟨tes, ?_⟩
      rw [fsLookup_append_some fs1 s [a] (FSTree.dir ses) hs1,
        fsLookup_dir_cons_some ses a [] (FSTree.dir tes)
          (wf_getEntry_of_mem ses a (FSTree.dir tes) hwfe he)]
      exact fsLookup_nil _
  have hdep1 : depthT fs1 < fuel + s.length + 1 := by omega
  obtain ⟨hnf, hpay⟩ := hB (ses.map (fun e => (e.1, isDirNode e.2))) fs1 s d hlen hwf1
    ⟨ses, hs1⟩ hdirs hdep1
  refine ⟨?_, ?_⟩
  · rw [hE]
    exact hnf
  · intro fs' hok
    rw [hE] at hok
    obtain ⟨hda, hwfa, hdpa⟩ := hpay fs' hok
    refine ⟨by omega, hwfa, ?_⟩
    intro p es0 hp
    obtain ⟨es1, hp1⟩ := hdp1 p es0 hp
    exact hdpa p es1 hp1

theorem copyTermLenOk_succ (fuel : Nat) (hB : CopyTermLenEntriesOk fuel) :
    CopyTermLenOk (fuel + 1) := by
  intro fs s d ses hlen hwf hs hdep
  have hslen : s.length ≤ depthT fs := depthT_lookup_le s fs (FSTree.dir ses) hs
  have hnsd : ¬ s <+: d := by
    intro hh
    have hll := hh.length_le
    omega
  cases hex : existsSync fs d with
  | true =>
    have hstep : (if existsSync fs d then some fs else mkdirSync fs d) = some fs :=
      if_pos hex
    exact copyTermLen_step fuel hB fs fs s d ses hlen hdep hstep (le_refl _) hwf hs
      (fun p es0 hp => ⟨es0, hp⟩)
  | false =>
    have hcond : ¬ (existsSync fs d = true) := by
      rw [hex]
      exact Bool.false_ne_true
    cases hmk : mkdirSync fs d with
    | none =>
      have hE : copyDirSync (fuel + 1) fs s d = CopyOut.err fs := by
        rw [copyDirSync_succ, if_neg hcond, hmk]
      refine ⟨?_, ?_⟩
      · rw [hE]
        exact fun hh => CopyOut.noConfusion hh
      · intro fs' hok
        rw [hE] at hok
        rcases hok with hok | hok
        · exact CopyOut.noConfusion hok
        · injection hok with hh
          rw [← hh]
          exact ⟨le_refl _, hwf, fun p es0 hp => ⟨es0, hp⟩⟩
    | some fs1 =>
      have hstep : (if existsSync fs d then some fs else mkdirSync fs d) = some fs1 := by
        rw [if_neg hcond, hmk]
      have hdm := mkdirSync_depth d fs fs1 hmk
      have hd1 : depthT fs1 ≤ depthT fs := by omega
      have hwf1 : wfTree fs1 = true := mkdirSync_wf d fs fs1 hmk hwf
      have hs1 : fsLookup fs1 s = some (FSTree.dir ses) := by
        rw [mkdirSync_frame d fs fs1 hmk s hnsd]
        exact hs
      exact copyTermLen_step fuel hB fs fs1 s d ses hlen hdep hstep hd1 hwf1 hs1
        (mkdirSync_dir_preserved d fs fs1 hmk)

theorem copyTermLenSpec : ∀ fuel, CopyTermLenOk fuel ∧ CopyTermLenEntriesOk fuel := by
  intro fuel
  induction fuel with
  | zero =>
    have hA : CopyTermLenOk 0 := by
      intro fs s d ses hlen hwf hs hdep
      have hslen : s.length ≤ depthT fs := depthT_lookup_le s fs (FSTree.dir ses) hs
      exact absurd hdep (by omega)
    exact ⟨hA, copyTermLenEntries_of 0 hA⟩
  | succ fuel ih =>
    have hA := copyTermLenOk_succ fuel ih.2
    exact ⟨hA, copyTermLenEntries_of (fuel + 1) hA⟩

/-- Creating `p/b` under an existing empty directory `p` succeeds and makes
`p` list exactly the new directory entry `b`. -/
theorem mkdir_into_empty : ∀ (p : List String) (fs : FSTree),
    fsLookup fs p = some (FSTree.dir []) →
    ∃ fs', mkdirSync fs (p ++ ["b"]) = some fs' ∧
      fsLookup fs' (p ++ ["b"]) = some (FSTree.dir []) ∧
      readdirSync fs' p = some [("b", true)] := by
  intro p
  induction p with
  | nil =>
    intro fs h
    rw [fsLookup_nil, Option.some.injEq] at h
    subst h
    exact ⟨FSTree.dir [("b", FSTree.dir [])], rfl, rfl, rfl⟩
  | cons n rest ih =>
    intro fs h
    cases fs with
    | file c =>
      rw [fsLookup_file_cons] at h
      exact Option.noConfusion h
    | dir es =>
      rw [fsLookup_dir_cons] at h
      cases hg : getEntry es n with
      | none =>
        rw [hg] at h
        exact Option.noConfusion h
      | some t =>
        rw [hg] at h
        obtain ⟨t', hmk, hlook, hrd⟩ := ih t h
        refine ⟨FSTree.dir (setEntry es n t'), ?_, ?_, ?_⟩
        · show mkdirSync (FSTree.dir es) (n :: (rest ++ ["b"])) =
            some (FSTree.dir (setEntry es n t'))
          simp only [mkdirSync, hg, hmk]
        · show fsLookup (FSTree.dir (setEntry es n t')) (n :: (rest ++ ["b"])) =
            some (FSTree.dir [])
          rw [fsLookup_dir_cons, getEntry_setEntry_self]
          exact hlook
        · have hl2 : fsLookup (FSTree.dir (setEntry es n t')) (n :: rest) =
              fsLookup t' rest := by
            rw [fsLookup_dir_cons, getEntry_setEntry_self]
          rw [readdirSync, hl2]
          rw [readdirSync] at hrd
          exact hrd

/-- With the destination nested directly inside an (empty) source
directory, `copyDirSync` runs out of any amount of fuel: it first creates
the destination, then rediscovers it as a fresh source entry and descends,
one level deeper each round. -/
theorem copyDirSync_diverges : ∀ (fuel : Nat) (fs : FSTree) (p : List String),
    fsLookup fs p = some (FSTree.dir []) →
    copyDirSync fuel fs p (p ++ ["b"]) = CopyOut.fuelOut := by
  intro fuel
  induction fuel with
  | zero =>
    intro fs p h
    exact copyDirSync_zero fs p (p ++ ["b"])
  | succ fuel ih =>
    intro fs p h
    obtain ⟨fs', hmk, hlook, hrd⟩ := mkdir_into_empty p fs h
    have hex : existsSync fs (p ++ ["b"]) = false := by
      rw [existsSync, fsLookup_append_some fs p ["b"] (FSTree.dir []) h]
      rfl
    have hcond : ¬ (existsSync fs (p ++ ["b"]) = true) := by
      rw [hex]
      exact Bool.false_ne_true
    rw [copyDirSync_succ, if_neg hcond, hmk]
    show (match readdirSync fs' p with
      | none => CopyOut.err fs'
      | some entries => copyEntries fuel fs' p (p ++ ["b"]) entries) = CopyOut.fuelOut
    rw [hrd]
    show copyEntries fuel fs' p (p ++ ["b"]) [("b", true)] = CopyOut.fuelOut
    rw [copyEntries_cons, if_pos rfl, pathJoin_eq, pathJoin_eq]
    rw [ih fs' (p ++ ["b"]) hlook]

/-- C10: `copyDirectory` terminates (some fuel suffices) for every call on
an existing, well-formed source directory whose resolved destination is
neither the source itself nor nested inside it; and the precondition is
necessary: with a destination nested inside the source, the copy creates
the destination, rediscovers it as a new source entry and descends without
bound, running out of every fuel. -/
theorem c10_termination (fs : FSTree) (src dest : List String)
    (ses : List (String × FSTree))
    (hwf : wfTree fs = true)
    (hpre : ¬ src <+: dest)
    (hsrc : fsLookup fs src = some (FSTree.dir ses)) :
    (∃ fuel, copyDirSync fuel fs src dest ≠ CopyOut.fuelOut) ∧
    (∀ fuel, copyDirSync fuel (FSTree.dir [("a", FSTree.dir [])]) ["a"] ["a", "b"] =
       CopyOut.fuelOut) := by
  constructor
  · by_cases hd : dest <+: src
    · have hlen : dest.length < src.length := by
        have hle := hd.length_le
        rcases Nat.lt_or_ge dest.length src.length with hlt | hge
        · exact hlt
        · exfalso
          have heq : dest.length = src.length := le_antisymm hle hge
          have hde : dest = src := hd.eq_of_length heq
          apply hpre
          rw [hde]
      refine ⟨depthT fs + 1, ?_⟩
      exact ((copyTermLenSpec (depthT fs + 1)).1 fs src dest ses hlen hwf hsrc
        (by omega)).1
    · have hic : Incomp src dest := ⟨hpre, hd⟩
      refine ⟨depthT (FSTree.dir ses) + 1, ?_⟩
      exact ((copyTermIncSpec (depthT (FSTree.dir ses) + 1)).1 fs src dest
        (FSTree.dir ses) hic hsrc (by omega)).1
  · intro fuel
    exact copyDirSync_diverges fuel (FSTree.dir [("a", FSTree.dir [])]) ["a"] rfl

/-- C10 (witness): the termination theorem applied to a concrete
well-formed tree with a source and a destination that do not overlap. -/
theorem c10_termination_witness :
    wfTree (FSTree.dir [("s", FSTree.dir [("f", FSTree.file [1])]),
      ("t", FSTree.dir [])]) = true ∧
    ¬ (["s"] : List String) <+: ["t"] ∧
    ((∃ fuel, copyDirSync fuel
        (FSTree.dir [("s", FSTree.dir [("f", FSTree.file [1])]), ("t", FSTree.dir [])])
        ["s"] ["t"] ≠ CopyOut.fuelOut) ∧
     (∀ fuel, copyDirSync fuel (FSTree.dir [("a", FSTree.dir [])]) ["a"] ["a", "b"] =
        CopyOut.fuelOut)) :=
  ⟨by decide, by decide,
    c10_termination
      (FSTree.dir [("s", FSTree.dir [("f", FSTree.file [1])]), ("t", FSTree.dir [])])
      ["s"] ["t"] [("f", FSTree.file [1])] (by decide) (by decide) rfl⟩
